import Mathlib

/-!
Verification of the media-luna audio fingerprinting pipeline.

This file gives a shallow embedding, in Lean 4, of the fingerprinting and
matching code of the repository (`internal/fingerprint/fingerprint.go`,
`internal/fingerprint/microphone.go`, `internal/eureka/recognition.go`), and
proves the stated properties of that code.

Modelling conventions:
* Go `float64` quantities (time stamps in milliseconds, spectral magnitudes,
  scores) are modelled as exact rationals `ℚ`; all comparisons performed by
  the code keep their outcome under this identification for the quantities
  involved (integer-valued counts divided by small integers, dyadic bin
  sizes and millisecond offsets far from decision boundaries).
* Go `int` is modelled as `Int`; the Go conversion `int(x)` from `float64`
  (truncation toward zero) is `truncQ`.
* Go slices are Lean lists; Go's indexed `for` loops become structural
  recursions with an explicit fuel argument that is always at least the
  number of remaining iterations.
* SHA-1 is implemented bit-faithfully over byte lists (`sha1Bytes`), with
  bytes and 32-bit words as `Nat` reduced mod `2 ^ 32`, and strings are
  taken to their UTF-8 byte sequences by `strBytes`.
-/

namespace MediaLuna

/-- Wrap a natural number to a 32-bit word, `n % 2 ^ 32`. -/
def w32 (n : Nat) : Nat := n % 4294967296

/-- Rotate a 32-bit word (already reduced mod `2 ^ 32`) left by `k` bits. -/
def rotl32 (k n : Nat) : Nat := w32 (n <<< k) ||| (n >>> (32 - k))

/-- Round function `f` of SHA-1, selected by the round index. -/
def sha1F (i b c d : Nat) : Nat :=
  if i < 20 then (b &&& c) ||| ((4294967295 - b) &&& d)
  else if i < 40 then b ^^^ c ^^^ d
  else if i < 60 then (b &&& c) ||| (b &&& d) ||| (c &&& d)
  else b ^^^ c ^^^ d

/-- Round constant `K` of SHA-1, selected by the round index. -/
def sha1K (i : Nat) : Nat :=
  if i < 20 then 1518500249
  else if i < 40 then 1859775393
  else if i < 60 then 2400959708
  else 3395469782

/-- One SHA-1 round: state `(a,b,c,d,e)` updated with round index `i` and
schedule word `wi`. -/
def sha1Round (st : Nat × Nat × Nat × Nat × Nat) (iw : Nat × Nat) :
    Nat × Nat × Nat × Nat × Nat :=
  match st, iw with
  | (a, b, c, d, e), (i, wi) =>
    (w32 (rotl32 5 a + sha1F i b c d + e + sha1K i + wi), a, rotl32 30 b, c, d)

/-- Message-schedule extension: prepends `k` new words to the reversed
word list `acc`, each the 1-rotation of the xor of words 3, 8, 14 and 16
back. -/
def sha1ExtendAux : Nat → List Nat → List Nat
  | 0, acc => acc
  | k + 1, acc =>
    sha1ExtendAux k
      (rotl32 1 (acc.getD 2 0 ^^^ acc.getD 7 0 ^^^ acc.getD 13 0 ^^^ acc.getD 15 0) :: acc)

/-- Full 80-word SHA-1 message schedule of a 16-word block. -/
def sha1Schedule (block : List Nat) : List Nat :=
  (sha1ExtendAux 64 block.reverse).reverse

/-- SHA-1 compression of one 16-word block into the running hash state. -/
def sha1Compress (h : Nat × Nat × Nat × Nat × Nat) (block : List Nat) :
    Nat × Nat × Nat × Nat × Nat :=
  match h with
  | (h0, h1, h2, h3, h4) =>
    match ((sha1Schedule block).enum).foldl sha1Round (h0, h1, h2, h3, h4) with
    | (a, b, c, d, e) =>
      (w32 (h0 + a), w32 (h1 + b), w32 (h2 + c), w32 (h3 + d), w32 (h4 + e))

/-- Group a byte list into big-endian 32-bit words (4 bytes per word). -/
def bytesToWords : List Nat → List Nat
  | b0 :: b1 :: b2 :: b3 :: rest =>
    (b0 <<< 24 + b1 <<< 16 + b2 <<< 8 + b3) :: bytesToWords rest
  | _ => []

/-- Big-endian 8-byte encoding of a natural number. -/
def beBytes8 (n : Nat) : List Nat :=
  [n >>> 56 % 256, n >>> 48 % 256, n >>> 40 % 256, n >>> 32 % 256,
   n >>> 24 % 256, n >>> 16 % 256, n >>> 8 % 256, n % 256]

/-- SHA-1 padding: append `0x80`, zero bytes to 56 mod 64, then the
bit length as 8 big-endian bytes. -/
def sha1Pad (msg : List Nat) : List Nat :=
  msg ++ 128 :: (List.replicate ((119 - msg.length % 64) % 64) 0 ++ beBytes8 (8 * msg.length))

/-- Split a word list into blocks of 16 words, with fuel. -/
def chunkWords : Nat → List Nat → List (List Nat)
  | 0, _ => []
  | _, [] => []
  | fuel + 1, ws => ws.take 16 :: chunkWords fuel (ws.drop 16)

/-- SHA-1 of a byte list, as the five 32-bit words of the digest. -/
def sha1Words (msg : List Nat) : Nat × Nat × Nat × Nat × Nat :=
  (chunkWords (bytesToWords (sha1Pad msg)).length (bytesToWords (sha1Pad msg))).foldl
    sha1Compress (1732584193, 4023233417, 2562383102, 271733878, 3285377520)

/-- Big-endian byte decomposition of a 32-bit word. -/
def wordBytes (w : Nat) : List Nat := [w >>> 24 % 256, w >>> 16 % 256, w >>> 8 % 256, w % 256]

/-- SHA-1 digest of a byte list as its 20 bytes. -/
def sha1Bytes (msg : List Nat) : List Nat :=
  match sha1Words msg with
  | (h0, h1, h2, h3, h4) =>
    wordBytes h0 ++ wordBytes h1 ++ wordBytes h2 ++ wordBytes h3 ++ wordBytes h4

/-- Lowercase hexadecimal digit characters. -/
def hexChars : List Char := "0123456789abcdef".data

/-- Lowercase hexadecimal digit of a value below 16. -/
def hexDigit (n : Nat) : Char := hexChars.getD n '0'

/-- Two lowercase hexadecimal characters of one byte. -/
def hexByte (b : Nat) : List Char := [hexDigit (b / 16), hexDigit (b % 16)]

/-- Lowercase hexadecimal string of a byte list, two characters per byte
(the Go `hex.EncodeToString`). -/
def hexString (bytes : List Nat) : String :=
  String.mk (bytes.foldr (fun b acc => hexByte b ++ acc) [])

/-- UTF-8 byte encoding of one character. -/
def utf8Bytes (c : Char) : List Nat :=
  if c.toNat < 128 then [c.toNat]
  else if c.toNat < 2048 then [192 + c.toNat / 64, 128 + c.toNat % 64]
  else if c.toNat < 65536 then
    [224 + c.toNat / 4096, 128 + c.toNat / 64 % 64, 128 + c.toNat % 64]
  else
    [240 + c.toNat / 262144, 128 + c.toNat / 4096 % 64, 128 + c.toNat / 64 % 64,
     128 + c.toNat % 64]

/-- UTF-8 byte sequence of a string. -/
def strBytes (s : String) : List Nat :=
  s.data.foldr (fun c acc => utf8Bytes c ++ acc) []

/-- Hex-encoded SHA-1 of the UTF-8 bytes of a string: the composition the Go
code performs with `sha1.New` / `hasher.Write([]byte(s))` /
`hex.EncodeToString`. -/
def sha1Hex (s : String) : String := hexString (sha1Bytes (strBytes s))

/-- Truncation of a rational toward zero: the Go conversion `int(x)` from
`float64` to `int` (`Int.tdiv` rounds toward zero). -/
def truncQ (q : ℚ) : Int := q.num.tdiv q.den

/-- Concatenation of the images of `f` over a list, preserving order
(the emission order of a Go loop that appends `f x` for each `x`). -/
def concatAll {α β : Type} (f : α → List β) : List α → List β
  | [] => []
  | x :: xs => f x ++ concatAll f xs

/-- Peak of the spectrogram, from `fingerprint.go`: frame index (`Time`),
time in milliseconds (`TimeMS`), magnitude, and frequency-bin index. -/
structure Peak where
  Time : ℚ
  TimeMS : ℚ
  Magnitude : ℚ
  FreqBin : Int
deriving DecidableEq

/-- Fingerprint record from `fingerprint.go`: hex SHA-1 hash, song id
(zero when produced by the encoders) and anchor offset in milliseconds. -/
structure Fingerprint where
  Hash : String
  SongID : Int
  Offset : Int
deriving DecidableEq

/-- Constant `FAN_VALUE` from `fingerprint.go`. -/
def FAN_VALUE : Nat := 15

/-- Constant `MIN_HASH_TIME_DELTA` from `fingerprint.go` (milliseconds). -/
def MIN_HASH_TIME_DELTA : ℚ := 0

/-- Constant `MAX_HASH_TIME_DELTA` from `fingerprint.go` (milliseconds). -/
def MAX_HASH_TIME_DELTA : ℚ := 2000

/-- Constant `PEAK_THRESHOLD` from `fingerprint.go` (`0.02`). -/
def PEAK_THRESHOLD : ℚ := 1 / 50

/-- Hash-input string `fmt.Sprintf("%d|%d|%d", anchorBin, targetBin, delta)`
of `fingerprint.go`. -/
def hashInputStr (anchorBin targetBin delta : Int) : String :=
  toString anchorBin ++ "|" ++ toString targetBin ++ "|" ++ toString delta

/-- Fingerprint emitted for one accepted anchor/target pair by
`generateFingerprintsWithTolerance`: SHA-1 of the hash-input string over the
two frequency bins and the truncated time delta, with the truncated anchor
time as offset. -/
def pairFingerprint (anchor target : Peak) : Fingerprint :=
  { Hash := sha1Hex (hashInputStr anchor.FreqBin target.FreqBin
      (truncQ (target.TimeMS - anchor.TimeMS)))
    SongID := 0
    Offset := truncQ anchor.TimeMS }

/-- Inner loop of `generateFingerprintsWithTolerance`: targets at indices
`j, j+1, ...` while `j < i + FAN_VALUE ∧ j < peaks.length`, emitting a
fingerprint for each pair whose time delta lies in `(0, 2000]`. The fuel
argument bounds the remaining iterations (`14` at the initial call
`j = i + 1` suffices). -/
def baseInner (peaks : List Peak) (anchor : Peak) (i : Nat) : Nat → Nat → List Fingerprint
  | 0, _ => []
  | fuel + 1, j =>
    if j < i + FAN_VALUE ∧ j < peaks.length then
      match peaks.get? j with
      | none => []
      | some target =>
        if target.TimeMS - anchor.TimeMS ≤ MIN_HASH_TIME_DELTA ∨
            target.TimeMS - anchor.TimeMS > MAX_HASH_TIME_DELTA then
          baseInner peaks anchor i fuel (j + 1)
        else
          pairFingerprint anchor target :: baseInner peaks anchor i fuel (j + 1)
    else []

/-- Function `generateFingerprintsWithTolerance` of `fingerprint.go`: for
each anchor index `i`, pair with targets at `j = i+1 …` within the fan-out
window (the `microphoneTolerance` parameter is ignored by the Go body:
"Always use original exact matching now"). -/
def generateFingerprintsWithTolerance (peaks : List Peak) (microphoneTolerance : Bool) :
    List Fingerprint :=
  concatAll (fun ia => baseInner peaks ia.2 ia.1 (FAN_VALUE - 1) (ia.1 + 1)) peaks.enum

/-- Function `GenerateFingerprints` of `fingerprint.go`. -/
def GenerateFingerprints (peaks : List Peak) : List Fingerprint :=
  generateFingerprintsWithTolerance peaks false

/-- Frequency band (start/end bin indices) from `fingerprint.go`. -/
structure FrequencyBand where
  Start : Int
  End : Int
deriving DecidableEq

/-- Function `getFrequencyBands` of `fingerprint.go`: the six fixed Hz bands
converted to bin ranges through `binSize = nyquist / (windowSize/2)` (Go
`int` truncation), then clamped to `windowSize/2 - 1`. -/
def getFrequencyBands (sampleRate windowSize : Int) : List FrequencyBand :=
  let nyquist : Int := sampleRate.tdiv 2
  let binSize : ℚ := (nyquist : ℚ) / ((windowSize.tdiv 2 : Int) : ℚ)
  let bands : List FrequencyBand :=
    [⟨truncQ (40 / binSize), truncQ (80 / binSize)⟩,
     ⟨truncQ (80 / binSize), truncQ (120 / binSize)⟩,
     ⟨truncQ (120 / binSize), truncQ (180 / binSize)⟩,
     ⟨truncQ (180 / binSize), truncQ (300 / binSize)⟩,
     ⟨truncQ (300 / binSize), truncQ (2000 / binSize)⟩,
     ⟨truncQ (2000 / binSize), truncQ (5000 / binSize)⟩]
  let maxBin : Int := windowSize.tdiv 2 - 1
  bands.map (fun b =>
    ⟨if b.Start > maxBin then maxBin else b.Start,
     if b.End > maxBin then maxBin else b.End⟩)

/-- Buffer update performed by `audioCallback` in `microphone.go`: append
the incoming samples (early return when none), then keep only the most
recent `sampleRate * 10` samples. -/
def audioCallback (sampleRate : Nat) (audioBuffer inp : List ℚ) : List ℚ :=
  if inp.length = 0 then audioBuffer
  else
    let buf := audioBuffer ++ inp
    let maxSamples := sampleRate * 10
    if buf.length > maxSamples then buf.drop (buf.length - maxSamples) else buf

/-- Row returned by the store lookup (`mysql.FingerprintMatch`). -/
structure FingerprintMatch where
  Hash : String
  SongID : Nat
  Offset : Int
deriving DecidableEq

/-- Song metadata row (`mysql.SongInfo`), restricted to the fields the
matcher reads. -/
structure SongInfo where
  Name : String
  Artist : String
deriving DecidableEq

/-- Match result (`eureka.Match`). The Go struct's `Timestamp` field is
never assigned by `findMatches` and stays at its zero value. -/
structure Match where
  SongID : Nat
  SongName : String
  Artist : String
  Score : ℚ
  Offset : Int
  Timestamp : ℚ
deriving DecidableEq

/-- Time alignment between sample and database (`eureka.TimeMatch`). -/
structure TimeMatch where
  SampleTime : Int
  DbTime : Int
  TimeDiff : Int
deriving DecidableEq

/-- Batch splitting of `findMatches`: consecutive slices of at most
`maxBatchSize = 1000` hashes (fuel-indexed loop). -/
def batchLoop : Nat → List String → List (List String)
  | 0, _ => []
  | _, [] => []
  | fuel + 1, hashes => hashes.take 1000 :: batchLoop fuel (hashes.drop 1000)

/-- The batches `hashes[i:i+1000]` produced by the batching loop of
`findMatches` in `recognition.go`. -/
def batchesOf (hashes : List String) : List (List String) :=
  batchLoop hashes.length hashes

/-- First-occurrence deduplication; models iterating the key set of a Go
map that was filled in list order. -/
def firstOccurAux {α : Type} [DecidableEq α] (seen : List α) : List α → List α
  | [] => []
  | x :: xs =>
    if x ∈ seen then firstOccurAux seen xs else x :: firstOccurAux (x :: seen) xs

/-- Distinct values of a list, in first-occurrence order. -/
def firstOccur {α : Type} [DecidableEq α] (l : List α) : List α := firstOccurAux [] l

/-- Count of the modal time difference: the `maxCount` computed by
`calculateTemporalScore` over the `timeDiffCounts` map. -/
def modalCount (timeMatches : List TimeMatch) : Nat :=
  let diffs := timeMatches.map TimeMatch.TimeDiff
  (firstOccur diffs).foldl
    (fun acc d => if diffs.count d > acc then diffs.count d else acc) 0

/-- Function `calculateTemporalScore` of `recognition.go`: zero below the
minimum match count, otherwise `maxCount * (maxCount/total) / norm` clamped
to 1, with norm 100 (file) or 50 (microphone). The local variables
`maxCount`, `alignedRatio = maxCount/total`, `rawScore` and the
normalization factor of the Go code are inlined. -/
def calculateTemporalScore (timeMatches : List TimeMatch) (isFromMicrophone : Bool) : ℚ :=
  if timeMatches.length < (if isFromMicrophone then 3 else 5) then 0
  else if (modalCount timeMatches : ℚ) *
        ((modalCount timeMatches : ℚ) / (timeMatches.length : ℚ)) /
        (if isFromMicrophone then 50 else 100) > 1 then 1
  else (modalCount timeMatches : ℚ) *
        ((modalCount timeMatches : ℚ) / (timeMatches.length : ℚ)) /
        (if isFromMicrophone then 50 else 100)

/-- Function `findMostCommonTimeDiff` of `recognition.go`. -/
def findMostCommonTimeDiff (timeMatches : List TimeMatch) : Int :=
  let diffs := timeMatches.map TimeMatch.TimeDiff
  ((firstOccur diffs).foldl
    (fun acc d => if diffs.count d > acc.1 then (diffs.count d, d) else acc) (0, 0)).2

/-- Per-song body of the scoring loop in `findMatches`: discard songs with
fewer than `minMatches` hits, score, compare against the threshold, fetch
song metadata (skip the song on lookup failure), and build the `Match`. -/
def processSong (getSong : Nat → Option SongInfo) (isFromMicrophone : Bool)
    (songID : Nat) (timeMatches : List TimeMatch) : Option Match :=
  if timeMatches.length < (if isFromMicrophone then 3 else 5) then none
  else if calculateTemporalScore timeMatches isFromMicrophone >
      (if isFromMicrophone then (1 : ℚ) / 20 else 1 / 10) then
    match getSong songID with
    | none => none
    | some songInfo =>
      some { SongID := songID, SongName := songInfo.Name, Artist := songInfo.Artist,
             Score := calculateTemporalScore timeMatches isFromMicrophone,
             Offset := findMostCommonTimeDiff timeMatches, Timestamp := 0 }
  else none

/-- Time matches accumulated for one song by the grouping loop of
`findMatches`: for each DB row of that song, the sample offset is looked up
in the query map (Go map access defaults to 0) and `TimeDiff = dbOffset −
sampleOffset`. -/
def timeMatchesFor (sampleFingerprints : List (String × Int))
    (rows : List FingerprintMatch) (songID : Nat) : List TimeMatch :=
  (rows.filter (fun r => r.SongID == songID)).map (fun r =>
    let sampleOffset := (List.lookup r.Hash sampleFingerprints).getD 0
    { SampleTime := sampleOffset, DbTime := r.Offset, TimeDiff := r.Offset - sampleOffset })

/-- Scoring, sorting and truncation part of `findMatches`, applied to the
concatenated DB rows of all batches. -/
def matchesFromRows (getSong : Nat → Option SongInfo) (isFromMicrophone : Bool)
    (sampleFingerprints : List (String × Int)) (allDbMatches : List FingerprintMatch) :
    List Match :=
  if allDbMatches.length = 0 then []
  else
    (((firstOccur (allDbMatches.map FingerprintMatch.SongID)).filterMap (fun s =>
        processSong getSong isFromMicrophone s
          (timeMatchesFor sampleFingerprints allDbMatches s))).mergeSort
      (fun a b => decide (b.Score ≤ a.Score))).take 5

/-- Function `findMatches` of `recognition.go`. The store is abstracted as
the lookup function `query` (the adaptor `QueryFingerprints`) and the song
table as `getSong` (`GetSongByID`, `none` modelling a lookup error); the
query map is an association list with distinct keys. -/
def findMatches (query : List String → List FingerprintMatch)
    (getSong : Nat → Option SongInfo)
    (sampleFingerprints : List (String × Int)) (isFromMicrophone : Bool) : List Match :=
  if (sampleFingerprints.map Prod.fst).length = 0 then []
  else matchesFromRows getSong isFromMicrophone sampleFingerprints
    (concatAll query (batchesOf (sampleFingerprints.map Prod.fst)))

/-- The five-fold repeated time match used by the boundary example of the
spec: five DB hits all in one Δ bucket. -/
def fiveAligned : List TimeMatch :=
  List.replicate 5 { SampleTime := 0, DbTime := 7, TimeDiff := 7 }

/-- Perturbation list of `generateFingerprintsWithMinimalTolerance`:
anchor −1, anchor +1, target −1, target +1. -/
def tolerances : List (Int × Int) := [(-1, 0), (1, 0), (0, -1), (0, 1)]

/-- Fingerprint emitted by the tolerance encoder for one perturbed
(anchor bin, target bin) pair. -/
def tolFingerprint (anchor : Peak) (anchorBin targetBin : Int) (timeDelta : ℚ) : Fingerprint :=
  { Hash := sha1Hex (hashInputStr anchorBin targetBin (truncQ timeDelta))
    SongID := 0
    Offset := truncQ anchor.TimeMS }

/-- Innermost loop of `generateFingerprintsWithMinimalTolerance` over the
four tolerance perturbations. It threads the `processed` counter and
returns the emitted fingerprints, the new counter, and whether the Go
`return` on `processed > 10000` fired. -/
def tolLoop (anchor target : Peak) : List (Int × Int) → Nat → List Fingerprint × Nat × Bool
  | [], processed => ([], processed, false)
  | tol :: rest, processed =>
    if anchor.FreqBin + tol.1 < 0 ∨ target.FreqBin + tol.2 < 0 ∨
        anchor.FreqBin + tol.1 > 2048 ∨ target.FreqBin + tol.2 > 2048 then
      tolLoop anchor target rest processed
    else if processed + 1 > 10000 then
      ([tolFingerprint anchor (anchor.FreqBin + tol.1) (target.FreqBin + tol.2)
          (target.TimeMS - anchor.TimeMS)], processed + 1, true)
    else
      match tolLoop anchor target rest (processed + 1) with
      | (fps, p', stop) =>
        (tolFingerprint anchor (anchor.FreqBin + tol.1) (target.FreqBin + tol.2)
          (target.TimeMS - anchor.TimeMS) :: fps, p', stop)

/-- Target loop of the tolerance encoder: `j` from `i+1` within the fan-out
window, with the same time-delta gate as the base encoder; the fuel bounds
the remaining iterations. -/
def tolInner (peaks : List Peak) (anchor : Peak) (i : Nat) :
    Nat → Nat → Nat → List Fingerprint × Nat × Bool
  | 0, _, processed => ([], processed, false)
  | fuel + 1, j, processed =>
    if j < i + FAN_VALUE ∧ j < peaks.length then
      match peaks.get? j with
      | none => ([], processed, false)
      | some target =>
        if target.TimeMS - anchor.TimeMS ≤ MIN_HASH_TIME_DELTA ∨
            target.TimeMS - anchor.TimeMS > MAX_HASH_TIME_DELTA then
          tolInner peaks anchor i fuel (j + 1) processed
        else
          match tolLoop anchor target tolerances processed with
          | (fps, p', true) => (fps, p', true)
          | (fps, p', false) =>
            match tolInner peaks anchor i fuel (j + 1) p' with
            | (fps2, p'', stop) => (fps ++ fps2, p'', stop)
    else ([], processed, false)

/-- Anchor loop of the tolerance encoder, with stride `skipFactor = 4`;
the fuel bounds the remaining iterations. -/
def tolOuter (peaks : List Peak) : Nat → Nat → Nat → List Fingerprint × Nat
  | 0, _, processed => ([], processed)
  | fuel + 1, i, processed =>
    if i < peaks.length then
      match peaks.get? i with
      | none => ([], processed)
      | some anchor =>
        match tolInner peaks anchor i (FAN_VALUE - 1) (i + 1) processed with
        | (fps, p', true) => (fps, p')
        | (fps, p', false) =>
          match tolOuter peaks fuel (i + 4) p' with
          | (fps2, p'') => (fps ++ fps2, p'')
    else ([], processed)

/-- Function `generateFingerprintsWithMinimalTolerance` of
`fingerprint.go`. -/
def generateFingerprintsWithMinimalTolerance (peaks : List Peak) : List Fingerprint :=
  (tolOuter peaks peaks.length 0 0).1

/-- Function `GenerateFingerprintsForMicrophone` of `fingerprint.go`:
base fingerprints concatenated with the minimal-tolerance set. -/
def GenerateFingerprintsForMicrophone (peaks : List Peak) : List Fingerprint :=
  generateFingerprintsWithTolerance peaks false ++
    generateFingerprintsWithMinimalTolerance peaks

/-- Counter-only mirror of `tolLoop` (same control flow, no hashes). -/
def tolLoopCount (anchor target : Peak) : List (Int × Int) → Nat → Nat × Bool
  | [], processed => (processed, false)
  | tol :: rest, processed =>
    if anchor.FreqBin + tol.1 < 0 ∨ target.FreqBin + tol.2 < 0 ∨
        anchor.FreqBin + tol.1 > 2048 ∨ target.FreqBin + tol.2 > 2048 then
      tolLoopCount anchor target rest processed
    else if processed + 1 > 10000 then (processed + 1, true)
    else tolLoopCount anchor target rest (processed + 1)

/-- Counter-only mirror of `tolInner`. -/
def tolInnerCount (peaks : List Peak) (anchor : Peak) (i : Nat) :
    Nat → Nat → Nat → Nat × Bool
  | 0, _, processed => (processed, false)
  | fuel + 1, j, processed =>
    if j < i + FAN_VALUE ∧ j < peaks.length then
      match peaks.get? j with
      | none => (processed, false)
      | some target =>
        if target.TimeMS - anchor.TimeMS ≤ MIN_HASH_TIME_DELTA ∨
            target.TimeMS - anchor.TimeMS > MAX_HASH_TIME_DELTA then
          tolInnerCount peaks anchor i fuel (j + 1) processed
        else
          match tolLoopCount anchor target tolerances processed with
          | (p', true) => (p', true)
          | (p', false) => tolInnerCount peaks anchor i fuel (j + 1) p'
    else (processed, false)

/-- Counter-only mirror of `tolOuter`. -/
def tolOuterCount (peaks : List Peak) : Nat → Nat → Nat → Nat
  | 0, _, processed => processed
  | fuel + 1, i, processed =>
    if i < peaks.length then
      match peaks.get? i with
      | none => processed
      | some anchor =>
        match tolInnerCount peaks anchor i (FAN_VALUE - 1) (i + 1) processed with
        | (p', true) => p'
        | (p', false) => tolOuterCount peaks fuel (i + 4) p'
    else processed

/-- List of 800 peaks at bin 100 spaced 100 ms apart: a stream on which the
tolerance encoder accepts every pair and emits four tokens per pair. -/
def capPeaks : List Peak :=
  (List.range 800).map (fun k : Nat => ⟨(k : ℚ), 100 * (k : ℚ), 1, 100⟩)

/-- Constant `WINDOW_SIZE` from `fingerprint.go`. -/
def WINDOW_SIZE : Int := 4096

/-- Neighbourhood offsets −1, 0, 1 iterated by `isLocalPeak`. -/
def deltaList : List Int := [-1, 0, 1]

/-- Magnitude-grid cell at natural indices (0 outside the grid; the Go code
only reads cells after an explicit bounds check). -/
def matGet (m : List (List ℚ)) (t f : Nat) : ℚ := (((m.get? t).getD []).get? f).getD 0

/-- Magnitude-grid cell at integer indices. -/
def cellI (m : List (List ℚ)) (t f : Int) : ℚ :=
  if 0 ≤ t ∧ 0 ≤ f then matGet m t.toNat f.toNat else 0

/-- Width used for the column bounds check of `isLocalPeak`: the Go code
compares against `len(magnitudes[0])`. -/
def width0 (m : List (List ℚ)) : Nat := ((m.get? 0).getD []).length

/-- Function `isLocalPeak` of `fingerprint.go`: the cell strictly exceeds
every in-range cell of its 3×3 neighbourhood (out-of-range neighbours are
skipped). -/
def isLocalPeak (m : List (List ℚ)) (t f : Int) : Bool :=
  deltaList.all fun dt => deltaList.all fun df =>
    if dt = 0 ∧ df = 0 then true
    else if 0 ≤ t + dt ∧ t + dt < (m.length : Int) ∧ 0 ≤ f + df ∧
        f + df < (width0 m : Int) then
      decide (cellI m t f > cellI m (t + dt) (f + df))
    else true

/-- Frame cell at an integer bin index (0 outside; the scan only selects
bins whose magnitude is strictly positive, hence in range). -/
def frameGet (frame : List ℚ) (f : Int) : ℚ :=
  if 0 ≤ f then (frame.get? f.toNat).getD 0 else 0

/-- Inclusive integer range `[a, b]`, the index sequence of the Go loop
`for f := band.Start; f <= band.End; f++`. -/
def intRange (a b : Int) : List Int :=
  (List.range (b + 1 - a).toNat).map (fun k : Nat => a + (k : Int))

/-- Inner scan of `PickPeaks` over one band: running
`(maxMag, maxBin)` accumulator, updated when a bin's magnitude strictly
exceeds the running maximum and the bin is a strict local peak. -/
def scanBand (m : List (List ℚ)) (t : Int) (frame : List ℚ) :
    List Int → ℚ × Int → ℚ × Int
  | [], best => best
  | f :: fs, best =>
    if frameGet frame f > best.1 ∧ isLocalPeak m t f = true then
      scanBand m t frame fs (frameGet frame f, f)
    else scanBand m t frame fs best

/-- Emission of `PickPeaks` for one (frame, band): skip bands outside the
frame, scan from `(0.0, -1)`, and emit when a bin was selected and its
magnitude exceeds `PEAK_THRESHOLD`. -/
def bandPeak (m : List (List ℚ)) (sampleRate : Int) (t : Nat) (frame : List ℚ)
    (band : FrequencyBand) : Option Peak :=
  if band.Start ≥ (frame.length : Int) ∨ band.End ≥ (frame.length : Int) then none
  else
    match scanBand m (t : Int) frame (intRange band.Start band.End) (0, -1) with
    | (maxMag, maxBin) =>
      if maxBin ≠ -1 ∧ maxMag > PEAK_THRESHOLD then
        some { Time := (t : ℚ),
               TimeMS := (t : ℚ) * ((WINDOW_SIZE.tdiv 4 : Int) : ℚ) / (sampleRate : ℚ) * 1000,
               Magnitude := maxMag, FreqBin := maxBin }
      else none

/-- Function `PickPeaks` of `fingerprint.go`, over the magnitude grid. The
source first maps the complex spectrogram through `getMagnitudes`
(`cmplx.Abs` per cell) and then scans; the scan is embedded directly over
the magnitude grid (rational cell values), which carries all the structure
the stated properties concern. -/
def PickPeaks (magnitudes : List (List ℚ)) (sampleRate : Int) : List Peak :=
  if magnitudes.length = 0 ∨ width0 magnitudes = 0 then []
  else
    concatAll (fun tf =>
        (getFrequencyBands sampleRate WINDOW_SIZE).filterMap
          (bandPeak magnitudes sampleRate tf.1 tf.2))
      magnitudes.enum

/-- Insertion into a Go map modelled as an association list with unique
keys: an existing key is overwritten, a new key is appended. -/
def mapUpsert (m : List (String × Int)) (k : String) (v : Int) : List (String × Int) :=
  if m.any (fun p => p.1 == k) then m.map (fun p => if p.1 == k then (k, v) else p)
  else m ++ [(k, v)]

/-- The sample fingerprint map built by `Recognize`:
`sampleFingerprintMap[fp.Hash] = fp.Offset` over the fingerprint list
(later writes win). -/
def fingerprintMapOf (fps : List Fingerprint) : List (String × Int) :=
  fps.foldl (fun acc fp => mapUpsert acc fp.Hash fp.Offset) []

/-- Recognition pipeline of `Recognize` (`recognition.go`) after the 30 s
truncation: spectrogram, peaks, fingerprints (empty-check), matching. The
STFT `SamplesToSpectrogram` lives outside the embedded sources and is
abstracted as the parameter `spectro` producing the magnitude grid. -/
def recognizeFrom (spectro : List ℚ → Int → List (List ℚ))
    (query : List String → List FingerprintMatch) (getSong : Nat → Option SongInfo)
    (samples : List ℚ) (sampleRate : Int) : List Match :=
  if (GenerateFingerprints (PickPeaks (spectro samples sampleRate) sampleRate)).length = 0
  then []
  else findMatches query getSong
    (fingerprintMapOf (GenerateFingerprints (PickPeaks (spectro samples sampleRate) sampleRate)))
    false

/-- Function `Recognize` of `recognition.go`, from decoded WAV samples on:
when the sample count exceeds `sampleRate * 30` the sample vector is
truncated to its first `sampleRate * 30` samples before spectrogram
generation. -/
def Recognize (spectro : List ℚ → Int → List (List ℚ))
    (query : List String → List FingerprintMatch) (getSong : Nat → Option SongInfo)
    (samples : List ℚ) (sampleRate : Int) : List Match :=
  if (samples.length : Int) > sampleRate * 30 then
    recognizeFrom spectro query getSong (samples.take (sampleRate * 30).toNat) sampleRate
  else recognizeFrom spectro query getSong samples sampleRate

/-- Membership in a `concatAll` is membership in the image of some element. -/
theorem mem_concatAll {α β : Type} (f : α → List β) (l : List α) (b : β) :
    b ∈ concatAll f l ↔ ∃ x ∈ l, b ∈ f x := by
  induction l with
  | nil => simp [concatAll]
  | cons x xs ih => simp [concatAll, ih]

/-- Characterisation of the inner loop of the base encoder: a fingerprint is
emitted iff it is the pair fingerprint of the anchor with some in-window,
in-range target whose time delta lies in `(0, 2000]`. -/
theorem mem_baseInner_iff (peaks : List Peak) (anchor : Peak) (i : Nat) (fp : Fingerprint) :
    ∀ fuel j, i + FAN_VALUE ≤ j + fuel →
    (fp ∈ baseInner peaks anchor i fuel j ↔
      ∃ jj target, j ≤ jj ∧ jj < i + FAN_VALUE ∧ jj < peaks.length ∧
        peaks.get? jj = some target ∧
        MIN_HASH_TIME_DELTA < target.TimeMS - anchor.TimeMS ∧
        target.TimeMS - anchor.TimeMS ≤ MAX_HASH_TIME_DELTA ∧
        fp = pairFingerprint anchor target) := by
  intro fuel
  induction fuel with
  | zero =>
    intro j hj
    simp only [baseInner, List.not_mem_nil, false_iff]
    rintro ⟨jj, target, hjle, hjlt, -⟩
    omega
  | succ fuel ih =>
    intro j hj
    by_cases hcond : j < i + FAN_VALUE ∧ j < peaks.length
    · have htarget : peaks.get? j = some (peaks.get ⟨j, hcond.2⟩) :=
        List.get?_eq_get hcond.2
      by_cases hrej : (peaks.get ⟨j, hcond.2⟩).TimeMS - anchor.TimeMS ≤ MIN_HASH_TIME_DELTA ∨
          (peaks.get ⟨j, hcond.2⟩).TimeMS - anchor.TimeMS > MAX_HASH_TIME_DELTA
      · rw [show baseInner peaks anchor i (fuel + 1) j = baseInner peaks anchor i fuel (j + 1) by
          simp only [baseInner, hcond, and_self, if_true, htarget, hrej, if_pos]]
        rw [ih (j + 1) (by omega)]
        constructor
        · rintro ⟨jj, target, h1, h2, h3, h4, h5, h6, h7⟩
          exact ⟨jj, target, by omega, h2, h3, h4, h5, h6, h7⟩
        · rintro ⟨jj, target, h1, h2, h3, h4, h5, h6, h7⟩
          rcases Nat.eq_or_lt_of_le h1 with rfl | hlt
          · rw [htarget] at h4
            cases h4
            exact absurd hrej (by push_neg; exact ⟨h5, h6⟩)
          · exact ⟨jj, target, by omega, h2, h3, h4, h5, h6, h7⟩
      · rw [show baseInner peaks anchor i (fuel + 1) j =
            pairFingerprint anchor (peaks.get ⟨j, hcond.2⟩) ::
              baseInner peaks anchor i fuel (j + 1) by
          simp only [baseInner, hcond, and_self, if_true, htarget, hrej, if_neg,
            not_false_eq_true]]
        push_neg at hrej
        rw [List.mem_cons, ih (j + 1) (by omega)]
        constructor
        · rintro (rfl | ⟨jj, target, h1, h2, h3, h4, h5, h6, h7⟩)
          · exact ⟨j, peaks.get ⟨j, hcond.2⟩, le_refl j, hcond.1, hcond.2, htarget,
              hrej.1, hrej.2, rfl⟩
          · exact ⟨jj, target, by omega, h2, h3, h4, h5, h6, h7⟩
        · rintro ⟨jj, target, h1, h2, h3, h4, h5, h6, h7⟩
          rcases Nat.eq_or_lt_of_le h1 with rfl | hlt
          · rw [htarget] at h4
            cases h4
            exact Or.inl h7
          · exact Or.inr ⟨jj, target, by omega, h2, h3, h4, h5, h6, h7⟩
    · rw [show baseInner peaks anchor i (fuel + 1) j = [] by
        simp only [baseInner, hcond, if_neg, not_false_eq_true]]
      simp only [List.not_mem_nil, false_iff]
      rintro ⟨jj, target, h1, h2, h3, -⟩
      omega

/-- Characterisation of the base encoder: a fingerprint is emitted iff it is
the pair fingerprint of peaks at indices `i < j` with `j` inside the fan-out
window and a time delta in `(0, 2000]`. -/
theorem mem_generateFingerprintsWithTolerance_iff (peaks : List Peak) (mic : Bool)
    (fp : Fingerprint) :
    fp ∈ generateFingerprintsWithTolerance peaks mic ↔
      ∃ i j anchor target, peaks.get? i = some anchor ∧ peaks.get? j = some target ∧
        i < j ∧ j < i + FAN_VALUE ∧ j < peaks.length ∧
        MIN_HASH_TIME_DELTA < target.TimeMS - anchor.TimeMS ∧
        target.TimeMS - anchor.TimeMS ≤ MAX_HASH_TIME_DELTA ∧
        fp = pairFingerprint anchor target := by
  unfold generateFingerprintsWithTolerance
  rw [mem_concatAll]
  constructor
  · rintro ⟨⟨i, anchor⟩, hmem, hfp⟩
    rw [List.mem_enum_iff_get?] at hmem
    rw [mem_baseInner_iff peaks anchor i fp (FAN_VALUE - 1) (i + 1) (by omega)] at hfp
    obtain ⟨jj, target, h1, h2, h3, h4, h5, h6, h7⟩ := hfp
    exact ⟨i, jj, anchor, target, hmem, h4, by omega, h2, h3, h5, h6, h7⟩
  · rintro ⟨i, j, anchor, target, h1, h2, h3, h4, h5, h6, h7, h8⟩
    refine ⟨⟨i, anchor⟩, List.mem_enum_iff_get?.mpr h1, ?_⟩
    rw [mem_baseInner_iff peaks anchor i fp (FAN_VALUE - 1) (i + 1) (by omega)]
    exact ⟨j, target, by omega, h4, h5, h2, h6, h7, h8⟩

/-- Every hexadecimal digit produced by `hexDigit` is a lowercase hex
character. -/
theorem hexDigit_mem (n : Nat) : hexDigit n ∈ hexChars := by
  unfold hexDigit List.getD
  cases h : hexChars.get? n with
  | none => simp only [Option.getD_none]; decide
  | some c => simpa using List.get?_mem h

/-- Every byte of a word decomposition is below 256. -/
theorem wordBytes_lt (w : Nat) : ∀ b ∈ wordBytes w, b < 256 := by
  intro b hb
  simp only [wordBytes, List.mem_cons, List.not_mem_nil, or_false] at hb
  rcases hb with rfl | rfl | rfl | rfl <;> exact Nat.mod_lt _ (by norm_num)

/-- The SHA-1 digest consists of exactly 20 bytes. -/
theorem sha1Bytes_length (msg : List Nat) : (sha1Bytes msg).length = 20 := by
  unfold sha1Bytes
  rcases sha1Words msg with ⟨h0, h1, h2, h3, h4⟩
  simp [wordBytes]

/-- Every byte of the SHA-1 digest is below 256. -/
theorem sha1Bytes_lt (msg : List Nat) : ∀ b ∈ sha1Bytes msg, b < 256 := by
  unfold sha1Bytes
  rcases sha1Words msg with ⟨h0, h1, h2, h3, h4⟩
  intro b hb
  simp only [List.mem_append] at hb
  rcases hb with ((((hb | hb) | hb) | hb) | hb) <;> exact wordBytes_lt _ b hb

/-- Hex encoding yields two characters per byte. -/
theorem hexString_length (bytes : List Nat) : (hexString bytes).length = 2 * bytes.length := by
  unfold hexString
  show (bytes.foldr (fun b acc => hexByte b ++ acc) []).length = 2 * bytes.length
  induction bytes with
  | nil => simp
  | cons b bs ih =>
    rw [List.foldr_cons, List.length_append, ih]
    simp only [hexByte, List.length_cons, List.length_nil, List.length_cons]
    omega

/-- Every character of a hex encoding is a lowercase hex character. -/
theorem hexString_mem (bytes : List Nat) : ∀ c ∈ (hexString bytes).data, c ∈ hexChars := by
  unfold hexString
  show ∀ c ∈ bytes.foldr (fun b acc => hexByte b ++ acc) [], c ∈ hexChars
  induction bytes with
  | nil => simp
  | cons b bs ih =>
    intro c hc
    simp only [List.foldr_cons, hexByte, List.cons_append, List.nil_append,
      List.mem_cons] at hc
    rcases hc with rfl | rfl | hc
    · exact hexDigit_mem _
    · exact hexDigit_mem _
    · exact ih c hc

/-- The hex-encoded SHA-1 of any string is 40 characters of lowercase hex. -/
theorem sha1Hex_format (s : String) :
    (sha1Hex s).length = 40 ∧ ∀ c ∈ (sha1Hex s).data, c ∈ hexChars := by
  constructor
  · unfold sha1Hex
    rw [hexString_length, sha1Bytes_length]
  · exact hexString_mem _

/-- **C1.** For every anchor/target peak pair accepted by the base
fingerprint encoder, the emitted hash is the 40-character lowercase
hexadecimal SHA-1 digest of the UTF-8 bytes of the string
`"<anchor.freq_bin>|<target.freq_bin>|<int(Δt_ms)>"` with `Δt_ms` truncated
toward zero to an integer, and the emitted offset is `int(anchor.time_ms)`;
in particular, for peaks with freq bins 123 and 456 and `Δt_ms = 789` the
emitted hash equals `sha1Hex "123|456|789"`. -/
theorem c1_fingerprint_hash_wire_format :
    (∀ (peaks : List Peak) (fp : Fingerprint),
      fp ∈ generateFingerprintsWithTolerance peaks false →
      ∃ i j anchor target, peaks.get? i = some anchor ∧ peaks.get? j = some target ∧
        i < j ∧ 0 < target.TimeMS - anchor.TimeMS ∧
        fp.Hash = sha1Hex (hashInputStr anchor.FreqBin target.FreqBin
          (truncQ (target.TimeMS - anchor.TimeMS))) ∧
        fp.Hash.length = 40 ∧ (∀ c ∈ fp.Hash.data, c ∈ hexChars) ∧
        fp.Offset = truncQ anchor.TimeMS) ∧
    (∀ anchor target : Peak, anchor.FreqBin = 123 → target.FreqBin = 456 →
      target.TimeMS - anchor.TimeMS = 789 →
      (pairFingerprint anchor target).Hash = sha1Hex "123|456|789") := by
  constructor
  · intro peaks fp hmem
    rw [mem_generateFingerprintsWithTolerance_iff] at hmem
    obtain ⟨i, j, anchor, target, h1, h2, h3, h4, h5, h6, h7, rfl⟩ := hmem
    exact ⟨i, j, anchor, target, h1, h2, h3, h6, rfl,
      (sha1Hex_format _).1, (sha1Hex_format _).2, rfl⟩
  · intro anchor target ha ht hd
    simp only [pairFingerprint, ha, ht, hd]
    have htr : truncQ (789 : ℚ) = 789 := of_decide_eq_true (by with_unfolding_all rfl)
    rw [htr]
    rfl

/-- Witness for C1: on the two-peak list with frequency bins 123 and 456 and
time delta 789 ms, the single emitted fingerprint carries a 40-character
hash equal to the SHA-1 of "123|456|789". -/
theorem c1_fingerprint_hash_wire_format_witness :
    (pairFingerprint ⟨0, 0, 1, 123⟩ ⟨1, 789, 1, 456⟩ ∈
        generateFingerprintsWithTolerance [⟨0, 0, 1, 123⟩, ⟨1, 789, 1, 456⟩] false) ∧
    (pairFingerprint ⟨0, 0, 1, 123⟩ ⟨1, 789, 1, 456⟩).Hash.length = 40 ∧
    (pairFingerprint ⟨0, 0, 1, 123⟩ ⟨1, 789, 1, 456⟩).Hash = sha1Hex "123|456|789" := by
  have hmem : pairFingerprint (⟨0, 0, 1, 123⟩ : Peak) ⟨1, 789, 1, 456⟩ ∈
      generateFingerprintsWithTolerance [⟨0, 0, 1, 123⟩, ⟨1, 789, 1, 456⟩] false :=
    (mem_generateFingerprintsWithTolerance_iff _ _ _).mpr
      ⟨0, 1, ⟨0, 0, 1, 123⟩, ⟨1, 789, 1, 456⟩, rfl, rfl, by omega,
        by norm_num [FAN_VALUE], by simp,
        by norm_num [MIN_HASH_TIME_DELTA], by norm_num [MAX_HASH_TIME_DELTA], rfl⟩
  refine ⟨hmem, ?_, ?_⟩
  · obtain ⟨i, j, a, t, -, -, -, -, -, h40, -, -⟩ :=
      c1_fingerprint_hash_wire_format.1 _ _ hmem
    exact h40
  · exact c1_fingerprint_hash_wire_format.2 _ _ rfl rfl (by norm_num)

/-- **C6.** A fingerprint is emitted by the base encoder over a peak list of
length `n` exactly when it is the pair fingerprint of an anchor at index `i`
and a target at index `j` with `i < j`, `j` ranging only over
`i+1 … min(i+15, n)−1`, and time delta `Δt_ms = target.time_ms −
anchor.time_ms` satisfying `0 < Δt_ms ≤ 2000`. -/
theorem c6_base_encoder_pair_window (peaks : List Peak) (fp : Fingerprint) :
    fp ∈ generateFingerprintsWithTolerance peaks false ↔
      ∃ i j anchor target, peaks.get? i = some anchor ∧ peaks.get? j = some target ∧
        i < j ∧ j < i + 15 ∧ j < peaks.length ∧
        0 < target.TimeMS - anchor.TimeMS ∧ target.TimeMS - anchor.TimeMS ≤ 2000 ∧
        fp = pairFingerprint anchor target :=
  mem_generateFingerprintsWithTolerance_iff peaks false fp

/-- **C4 counterexample.** With sample rate 44100 and window size 4096, the
band `[2000, 5000)` is converted to bin range `[185, 464]`, not `[186, 464]`
as claimed: `binSize = 22050/2048` and `int(2000 / binSize) =
int(185.759...) = 185`. -/
theorem c4_band_bins_counterexample :
    (getFrequencyBands 44100 4096).get? 5 ≠ some ⟨186, 464⟩ :=
  of_decide_eq_true (by with_unfolding_all rfl)

/-- **C4 (amended).** With sample rate 44100 and window size 4096, the band
`[2000, 5000)` is converted (via `binSize = nyquist / (windowSize/2)`) to
the bin range `[185, 464]`, and after clamping no band's start or end bin
exceeds `windowSize/2 − 1 = 2047`. -/
theorem c4_band_bins_amended :
    (getFrequencyBands 44100 4096).get? 5 = some ⟨185, 464⟩ ∧
    (getFrequencyBands 44100 4096).all
      (fun b => decide (b.Start ≤ 2047) && decide (b.End ≤ 2047)) = true :=
  ⟨of_decide_eq_true (by with_unfolding_all rfl),
   of_decide_eq_true (by with_unfolding_all rfl)⟩

/-- **C9.** After every capture-callback append, the microphone audio buffer
holds at most 10 seconds of samples (441000 samples at 44.1 kHz); when the
bound would be exceeded only the oldest samples are evicted, so the buffer
always holds exactly the most recent samples of the appended stream. -/
theorem c9_microphone_buffer_bound (audioBuffer inp : List ℚ)
    (h : audioBuffer.length ≤ 441000) :
    (audioCallback 44100 audioBuffer inp).length ≤ 441000 ∧
    audioCallback 44100 audioBuffer inp =
      (audioBuffer ++ inp).drop ((audioBuffer ++ inp).length -
        min (audioBuffer ++ inp).length 441000) := by
  unfold audioCallback
  by_cases hin : inp.length = 0
  · rw [if_pos hin]
    have hnil : inp = [] := List.length_eq_zero.mp hin
    subst hnil
    simp only [List.append_nil]
    constructor
    · exact h
    · rw [min_eq_left h, Nat.sub_self, List.drop_zero]
  · rw [if_neg hin]
    simp only
    by_cases hlen : (audioBuffer ++ inp).length > 44100 * 10
    · rw [if_pos hlen]
      constructor
      · rw [List.length_drop]
        omega
      · rw [min_eq_right (by omega : 441000 ≤ (audioBuffer ++ inp).length)]
    · rw [if_neg hlen]
      constructor
      · omega
      · rw [min_eq_left (by omega : (audioBuffer ++ inp).length ≤ 441000),
          Nat.sub_self, List.drop_zero]

/-- Witness for C9 at a concrete small buffer. -/
theorem c9_microphone_buffer_bound_witness :
    (audioCallback 44100 [1, 2] [3]).length ≤ 441000 ∧
    audioCallback 44100 [1, 2] [3] =
      ([1, 2] ++ [3] : List ℚ).drop (([1, 2] ++ [3] : List ℚ).length -
        min ([1, 2] ++ [3] : List ℚ).length 441000) :=
  c9_microphone_buffer_bound [1, 2] [3] (by norm_num)

/-- Every batch produced by the batching loop has at most 1000 hashes. -/
theorem batchLoop_le (fuel : Nat) : ∀ l, ∀ b ∈ batchLoop fuel l, b.length ≤ 1000 := by
  induction fuel with
  | zero => intro l b hb; simp [batchLoop] at hb
  | succ fuel ih =>
    intro l b hb
    cases l with
    | nil => simp [batchLoop] at hb
    | cons x xs =>
      simp only [batchLoop, List.mem_cons] at hb
      rcases hb with rfl | hb
      · exact List.length_take_le 1000 (x :: xs)
      · exact ih _ b hb

/-- With enough fuel the batches concatenate back to the input list. -/
theorem batchLoop_flatten (fuel : Nat) : ∀ l : List String, l.length ≤ fuel →
    (batchLoop fuel l).flatten = l := by
  induction fuel with
  | zero =>
    intro l hl
    have hnil : l = [] := List.length_eq_zero.mp (Nat.le_zero.mp hl)
    subst hnil
    rfl
  | succ fuel ih =>
    intro l hl
    cases l with
    | nil => rfl
    | cons x xs =>
      show ((x :: xs).take 1000 :: batchLoop fuel ((x :: xs).drop 1000)).flatten = x :: xs
      rw [List.flatten_cons, ih ((x :: xs).drop 1000) (by simp at hl ⊢; omega),
        List.take_append_drop]

/-- **C7.** The matcher partitions the query hashes into consecutive batches
of at most 1000 hashes each, and consults the store only on those batches,
concatenating the returned rows; no single store query receives more than
1000 hashes. -/
theorem c7_matcher_batching (query : List String → List FingerprintMatch)
    (getSong : Nat → Option SongInfo) (sampleFingerprints : List (String × Int))
    (isFromMicrophone : Bool) :
    (∀ b ∈ batchesOf (sampleFingerprints.map Prod.fst), b.length ≤ 1000) ∧
    (batchesOf (sampleFingerprints.map Prod.fst)).flatten = sampleFingerprints.map Prod.fst ∧
    (sampleFingerprints.map Prod.fst ≠ [] →
      findMatches query getSong sampleFingerprints isFromMicrophone =
        matchesFromRows getSong isFromMicrophone sampleFingerprints
          (concatAll query (batchesOf (sampleFingerprints.map Prod.fst)))) := by
  refine ⟨batchLoop_le _ _, batchLoop_flatten _ _ le_rfl, fun hne => ?_⟩
  unfold findMatches
  rw [if_neg (by simpa using fun h => hne (List.length_eq_zero.mp h))]

/-- Witness for C7 on a one-hash query map. -/
theorem c7_matcher_batching_witness :
    (∀ b ∈ batchesOf ([("h1", (0 : Int))].map Prod.fst), b.length ≤ 1000) ∧
    findMatches (fun _ => []) (fun _ => none) [("h1", 0)] false =
      matchesFromRows (fun _ => none) false [("h1", 0)]
        (concatAll (fun _ => []) (batchesOf ([("h1", (0 : Int))].map Prod.fst))) :=
  ⟨(c7_matcher_batching (fun _ => []) (fun _ => none) [("h1", 0)] false).1,
   (c7_matcher_batching (fun _ => []) (fun _ => none) [("h1", 0)] false).2.2 (by simp)⟩

/-- **C8.** For every query, the match list returned by the matcher is
sorted in descending order of score and contains at most 5 entries. -/
theorem c8_matches_sorted_top5 (query : List String → List FingerprintMatch)
    (getSong : Nat → Option SongInfo) (sampleFingerprints : List (String × Int))
    (isFromMicrophone : Bool) :
    List.Pairwise (fun a b : Match => b.Score ≤ a.Score)
      (findMatches query getSong sampleFingerprints isFromMicrophone) ∧
    (findMatches query getSong sampleFingerprints isFromMicrophone).length ≤ 5 := by
  have hkey : ∀ l : List Match,
      List.Pairwise (fun a b : Match => b.Score ≤ a.Score)
        ((l.mergeSort (fun a b => decide (b.Score ≤ a.Score))).take 5) ∧
      ((l.mergeSort (fun a b => decide (b.Score ≤ a.Score))).take 5).length ≤ 5 := by
    intro l
    constructor
    · refine List.Pairwise.sublist (List.take_sublist _ _) ?_
      have hs := @List.sorted_mergeSort Match (fun a b : Match => decide (b.Score ≤ a.Score))
        (fun a b c hab hbc => by
          simp only [decide_eq_true_eq] at *
          exact le_trans hbc hab)
        (fun a b => by
          simp only [Bool.or_eq_true, decide_eq_true_eq]
          exact le_total b.Score a.Score) l
      exact hs.imp (fun h => of_decide_eq_true h)
    · exact List.length_take_le 5 _
  unfold findMatches
  split
  · simp
  · unfold matchesFromRows
    split
    · simp
    · exact hkey _

/-- First-occurrence deduplication keeps exactly the elements not yet seen. -/
theorem mem_firstOccurAux {α : Type} [DecidableEq α] (x : α) :
    ∀ (l : List α) (seen : List α), x ∈ firstOccurAux seen l ↔ x ∈ l ∧ x ∉ seen := by
  intro l
  induction l with
  | nil => intro seen; simp [firstOccurAux]
  | cons y ys ih =>
    intro seen
    by_cases hy : y ∈ seen
    · rw [show firstOccurAux seen (y :: ys) = firstOccurAux seen ys by
        simp [firstOccurAux, hy]]
      rw [ih seen]
      constructor
      · rintro ⟨h1, h2⟩
        exact ⟨List.mem_cons_of_mem _ h1, h2⟩
      · rintro ⟨h1, h2⟩
        rcases List.mem_cons.mp h1 with rfl | h1
        · exact absurd hy h2
        · exact ⟨h1, h2⟩
    · rw [show firstOccurAux seen (y :: ys) = y :: firstOccurAux (y :: seen) ys by
        simp [firstOccurAux, hy]]
      rw [List.mem_cons, ih (y :: seen)]
      constructor
      · rintro (rfl | ⟨h1, h2⟩)
        · exact ⟨List.mem_cons_self _ _, hy⟩
        · exact ⟨List.mem_cons_of_mem _ h1, fun hseen => h2 (List.mem_cons_of_mem _ hseen)⟩
      · rintro ⟨h1, h2⟩
        by_cases hxy : x = y
        · exact Or.inl hxy
        · have h1' : x ∈ ys := by
            rcases List.mem_cons.mp h1 with h | h
            exacts [absurd h hxy, h]
          refine Or.inr ⟨h1', fun h => ?_⟩
          rcases List.mem_cons.mp h with h | h
          exacts [hxy h, h2 h]

/-- Membership in `firstOccur` is membership in the underlying list. -/
theorem mem_firstOccur {α : Type} [DecidableEq α] (x : α) (l : List α) :
    x ∈ firstOccur l ↔ x ∈ l := by
  rw [firstOccur, mem_firstOccurAux]
  simp

/-- The running-max fold over counts dominates its start value and every
count in the folded list. -/
theorem foldl_count_max (diffs : List Int) :
    ∀ (l : List Int) (acc : Nat),
      acc ≤ l.foldl (fun a d => if diffs.count d > a then diffs.count d else a) acc ∧
      ∀ d ∈ l,
        diffs.count d ≤ l.foldl (fun a d => if diffs.count d > a then diffs.count d else a) acc := by
  intro l
  induction l with
  | nil => intro acc; simp
  | cons x xs ih =>
    intro acc
    simp only [List.foldl_cons]
    constructor
    · refine le_trans ?_ (ih _).1
      split <;> omega
    · intro d hd
      rcases List.mem_cons.mp hd with rfl | hd
      · refine le_trans ?_ (ih _).1
        split <;> omega
      · exact (ih _).2 d hd

/-- The running-max fold over counts returns its start value or one of the
counts in the folded list. -/
theorem foldl_count_max_attains (diffs : List Int) :
    ∀ (l : List Int) (acc : Nat),
      l.foldl (fun a d => if diffs.count d > a then diffs.count d else a) acc = acc ∨
      ∃ d ∈ l,
        l.foldl (fun a d => if diffs.count d > a then diffs.count d else a) acc =
          diffs.count d := by
  intro l
  induction l with
  | nil => intro acc; exact Or.inl rfl
  | cons x xs ih =>
    intro acc
    simp only [List.foldl_cons]
    rcases ih (if diffs.count x > acc then diffs.count x else acc) with h | ⟨d, hd, he⟩
    · rw [h]
      split
      · exact Or.inr ⟨x, List.mem_cons_self _ _, rfl⟩
      · exact Or.inl rfl
    · exact Or.inr ⟨d, List.mem_cons_of_mem _ hd, he⟩

/-- Every time-difference count is dominated by the modal count. -/
theorem count_le_modalCount (tms : List TimeMatch) :
    ∀ d ∈ tms.map TimeMatch.TimeDiff,
      (tms.map TimeMatch.TimeDiff).count d ≤ modalCount tms := by
  intro d hd
  exact (foldl_count_max _ _ 0).2 d ((mem_firstOccur d _).mpr hd)

/-- On a nonempty match list the modal count is attained by some
time difference. -/
theorem modalCount_attains (tms : List TimeMatch) (h : tms ≠ []) :
    ∃ d ∈ tms.map TimeMatch.TimeDiff,
      (tms.map TimeMatch.TimeDiff).count d = modalCount tms := by
  unfold modalCount
  rcases foldl_count_max_attains (tms.map TimeMatch.TimeDiff)
      (firstOccur (tms.map TimeMatch.TimeDiff)) 0 with h0 | ⟨d, hd, he⟩
  · exfalso
    obtain ⟨t, rest, rfl⟩ := List.exists_cons_of_ne_nil h
    have hmem : t.TimeDiff ∈ (t :: rest).map TimeMatch.TimeDiff := by simp
    have hle := (foldl_count_max ((t :: rest).map TimeMatch.TimeDiff) _ 0).2 t.TimeDiff
      ((mem_firstOccur _ _).mpr hmem)
    rw [h0] at hle
    have : 1 ≤ ((t :: rest).map TimeMatch.TimeDiff).count t.TimeDiff :=
      List.count_pos_iff_mem.mpr hmem
    omega
  · exact ⟨d, (mem_firstOccur d _).mp hd, he.symm⟩

/-- Clamping by an `if` is the `min` with 1. -/
theorem if_gt_one_eq_min (q : ℚ) : (if q > 1 then 1 else q) = min 1 q := by
  split_ifs with h
  · rw [min_eq_left (le_of_lt h)]
  · rw [min_eq_right (not_lt.mp h)]

/-- **C2.** For each candidate song with `total` DB hits and `peak_count`
the count of the modal `Δ = db_offset − query_offset`: the song is
discarded unless `total ≥ 5` (file) or `≥ 3` (microphone); otherwise
`score = min(1, peak_count · (peak_count/total) / norm)` with norm 100
(file) or 50 (microphone), and the song is emitted only when
`score > 0.1` (file) or `> 0.05` (microphone). In particular five hits in
one Δ bucket score 1/20 in file mode (excluded) and 1/10 in microphone
mode (included). -/
theorem c2_temporal_scoring (getSong : Nat → Option SongInfo) (songID : Nat)
    (tms : List TimeMatch) (isMic : Bool) :
    (tms.length < (if isMic then 3 else 5) →
      processSong getSong isMic songID tms = none) ∧
    ((if isMic then 3 else 5) ≤ tms.length →
      calculateTemporalScore tms isMic =
        min 1 ((modalCount tms : ℚ) * ((modalCount tms : ℚ) / (tms.length : ℚ)) /
          (if isMic then 50 else 100))) ∧
    (∀ d ∈ tms.map TimeMatch.TimeDiff,
      (tms.map TimeMatch.TimeDiff).count d ≤ modalCount tms) ∧
    (tms ≠ [] → ∃ d ∈ tms.map TimeMatch.TimeDiff,
      (tms.map TimeMatch.TimeDiff).count d = modalCount tms) ∧
    (∀ m, processSong getSong isMic songID tms = some m →
      m.Score > (if isMic then (1 : ℚ) / 20 else 1 / 10) ∧
      m.Score = calculateTemporalScore tms isMic) ∧
    calculateTemporalScore fiveAligned false = 1 / 20 ∧
    calculateTemporalScore fiveAligned true = 1 / 10 ∧
    processSong (fun _ => some ⟨"n", "a"⟩) false songID fiveAligned = none ∧
    (processSong (fun _ => some ⟨"n", "a"⟩) true songID fiveAligned).isSome = true := by
  refine ⟨?_, ?_, count_le_modalCount tms, modalCount_attains tms, ?_, ?_, ?_, ?_, ?_⟩
  · intro hlt
    unfold processSong
    rw [if_pos hlt]
  · intro hge
    unfold calculateTemporalScore
    rw [if_neg (by omega)]
    exact if_gt_one_eq_min _
  · intro m hm
    unfold processSong at hm
    by_cases hlen : tms.length < (if isMic then 3 else 5)
    · rw [if_pos hlen] at hm
      exact absurd hm (by simp)
    · rw [if_neg hlen] at hm
      by_cases hth : calculateTemporalScore tms isMic >
          (if isMic then (1 : ℚ) / 20 else 1 / 10)
      · rw [if_pos hth] at hm
        cases hg : getSong songID with
        | none => rw [hg] at hm; exact absurd hm (by simp)
        | some songInfo =>
          rw [hg] at hm
          cases Option.some.inj hm
          exact ⟨hth, rfl⟩
      · rw [if_neg hth] at hm
        exact absurd hm (by simp)
  · exact of_decide_eq_true (by with_unfolding_all rfl)
  · exact of_decide_eq_true (by with_unfolding_all rfl)
  · exact of_decide_eq_true (by with_unfolding_all rfl)
  · exact of_decide_eq_true (by with_unfolding_all rfl)

/-- Witness for C2: the five-hit boundary example, file mode. -/
theorem c2_temporal_scoring_witness :
    calculateTemporalScore fiveAligned false =
      min 1 ((modalCount fiveAligned : ℚ) *
        ((modalCount fiveAligned : ℚ) / (fiveAligned.length : ℚ)) / 100) := by
  have h := (c2_temporal_scoring (fun _ => none) 0 fiveAligned false).2.1
    (by simp [fiveAligned])
  simpa using h

/-- The `processed` counter of the tolerance perturbation loop counts
emitted fingerprints, and starting at or below the cap it ends at 10001
exactly when the early return fired, staying at or below 10000 otherwise. -/
theorem tolLoop_spec (anchor target : Peak) :
    ∀ (tols : List (Int × Int)) (p : Nat), p ≤ 10000 →
      (tolLoop anchor target tols p).2.1 = p + (tolLoop anchor target tols p).1.length ∧
      ((tolLoop anchor target tols p).2.2 = true →
        (tolLoop anchor target tols p).2.1 = 10001) ∧
      ((tolLoop anchor target tols p).2.2 = false →
        (tolLoop anchor target tols p).2.1 ≤ 10000) := by
  intro tols
  induction tols with
  | nil => intro p hp; simp [tolLoop, hp]
  | cons tol rest ih =>
    intro p hp
    by_cases hskip : anchor.FreqBin + tol.1 < 0 ∨ target.FreqBin + tol.2 < 0 ∨
        anchor.FreqBin + tol.1 > 2048 ∨ target.FreqBin + tol.2 > 2048
    · simp only [tolLoop, if_pos hskip]
      exact ih p hp
    · by_cases hcap : p + 1 > 10000
      · simp only [tolLoop, if_neg hskip, if_pos hcap]
        refine ⟨by simp, fun _ => by omega, fun h => by simp at h⟩
      · simp only [tolLoop, if_neg hskip, if_neg hcap]
        obtain ⟨h1, h2, h3⟩ := ih (p + 1) (by omega)
        rcases hT : tolLoop anchor target rest (p + 1) with ⟨fps, p', stop⟩
        rw [hT] at h1 h2 h3
        dsimp only at h1 h2 h3 ⊢
        simp only [List.length_cons]
        exact ⟨by omega, h2, h3⟩

/-- Analogue of `tolLoop_spec` for the target loop. -/
theorem tolInner_spec (peaks : List Peak) (anchor : Peak) (i : Nat) :
    ∀ (fuel j p : Nat), p ≤ 10000 →
      (tolInner peaks anchor i fuel j p).2.1 =
        p + (tolInner peaks anchor i fuel j p).1.length ∧
      ((tolInner peaks anchor i fuel j p).2.2 = true →
        (tolInner peaks anchor i fuel j p).2.1 = 10001) ∧
      ((tolInner peaks anchor i fuel j p).2.2 = false →
        (tolInner peaks anchor i fuel j p).2.1 ≤ 10000) := by
  intro fuel
  induction fuel with
  | zero => intro j p hp; simp [tolInner, hp]
  | succ fuel ih =>
    intro j p hp
    by_cases hcond : j < i + FAN_VALUE ∧ j < peaks.length
    · have htarget : peaks.get? j = some (peaks.get ⟨j, hcond.2⟩) := List.get?_eq_get hcond.2
      by_cases hrej : (peaks.get ⟨j, hcond.2⟩).TimeMS - anchor.TimeMS ≤ MIN_HASH_TIME_DELTA ∨
          (peaks.get ⟨j, hcond.2⟩).TimeMS - anchor.TimeMS > MAX_HASH_TIME_DELTA
      · rw [show tolInner peaks anchor i (fuel + 1) j p =
            tolInner peaks anchor i fuel (j + 1) p by
          simp only [tolInner, if_pos hcond, htarget, if_pos hrej]]
        exact ih (j + 1) p hp
      · obtain ⟨l1, l2, l3⟩ := tolLoop_spec anchor (peaks.get ⟨j, hcond.2⟩) tolerances p hp
        rcases hT : tolLoop anchor (peaks.get ⟨j, hcond.2⟩) tolerances p with ⟨fps, p', stop⟩
        rw [hT] at l1 l2 l3
        dsimp only at l1 l2 l3
        cases stop with
        | true =>
          rw [show tolInner peaks anchor i (fuel + 1) j p = (fps, p', true) by
            simp only [tolInner, if_pos hcond, htarget, if_neg hrej, hT]]
          dsimp only
          exact ⟨l1, fun _ => l2 rfl, fun h => by simp at h⟩
        | false =>
          obtain ⟨r1, r2, r3⟩ := ih (j + 1) p' (l3 rfl)
          rcases hR : tolInner peaks anchor i fuel (j + 1) p' with ⟨fps2, p'', stop2⟩
          rw [hR] at r1 r2 r3
          dsimp only at r1 r2 r3
          rw [show tolInner peaks anchor i (fuel + 1) j p = (fps ++ fps2, p'', stop2) by
            simp only [tolInner, if_pos hcond, htarget, if_neg hrej, hT, hR]]
          dsimp only
          simp only [List.length_append]
          exact ⟨by omega, r2, r3⟩
    · rw [show tolInner peaks anchor i (fuel + 1) j p = ([], p, false) by
        simp only [tolInner, if_neg hcond]]
      exact ⟨by simp, fun h => by simp at h, fun _ => hp⟩

/-- The anchor loop counts its output in `processed` and never exceeds
10001. -/
theorem tolOuter_spec (peaks : List Peak) :
    ∀ (fuel i p : Nat), p ≤ 10000 →
      (tolOuter peaks fuel i p).2 = p + (tolOuter peaks fuel i p).1.length ∧
      (tolOuter peaks fuel i p).2 ≤ 10001 := by
  intro fuel
  induction fuel with
  | zero => intro i p hp; simp [tolOuter]; omega
  | succ fuel ih =>
    intro i p hp
    by_cases hcond : i < peaks.length
    · have hanchor : peaks.get? i = some (peaks.get ⟨i, hcond⟩) := List.get?_eq_get hcond
      obtain ⟨l1, l2, l3⟩ :=
        tolInner_spec peaks (peaks.get ⟨i, hcond⟩) i (FAN_VALUE - 1) (i + 1) p hp
      rcases hT : tolInner peaks (peaks.get ⟨i, hcond⟩) i (FAN_VALUE - 1) (i + 1) p
        with ⟨fps, p', stop⟩
      rw [hT] at l1 l2 l3
      dsimp only at l1 l2 l3
      cases stop with
      | true =>
        rw [show tolOuter peaks (fuel + 1) i p = (fps, p') by
          simp only [tolOuter, if_pos hcond, hanchor, hT]]
        dsimp only
        have h2' := l2 rfl
        exact ⟨l1, by omega⟩
      | false =>
        obtain ⟨r1, r2⟩ := ih (i + 4) p' (l3 rfl)
        rcases hR : tolOuter peaks fuel (i + 4) p' with ⟨fps2, p''⟩
        rw [hR] at r1 r2
        dsimp only at r1 r2
        rw [show tolOuter peaks (fuel + 1) i p = (fps ++ fps2, p'') by
          simp only [tolOuter, if_pos hcond, hanchor, hT, hR]]
        dsimp only
        simp only [List.length_append]
        exact ⟨by omega, r2⟩
    · rw [show tolOuter peaks (fuel + 1) i p = ([], p) by
        simp only [tolOuter, if_neg hcond]]
      simp
      omega

/-- The counter/flag component of `tolLoop` is computed by its hash-free
mirror. -/
theorem tolLoop_count_eq (anchor target : Peak) :
    ∀ (tols : List (Int × Int)) (p : Nat),
      (tolLoop anchor target tols p).2 = tolLoopCount anchor target tols p := by
  intro tols
  induction tols with
  | nil => intro p; rfl
  | cons tol rest ih =>
    intro p
    by_cases hskip : anchor.FreqBin + tol.1 < 0 ∨ target.FreqBin + tol.2 < 0 ∨
        anchor.FreqBin + tol.1 > 2048 ∨ target.FreqBin + tol.2 > 2048
    · simp only [tolLoop, tolLoopCount, if_pos hskip]
      exact ih p
    · by_cases hcap : p + 1 > 10000
      · simp only [tolLoop, tolLoopCount, if_neg hskip, if_pos hcap]
      · simp only [tolLoop, tolLoopCount, if_neg hskip, if_neg hcap]
        have h := ih (p + 1)
        rcases hT : tolLoop anchor target rest (p + 1) with ⟨fps, pr⟩
        rw [hT] at h
        dsimp only at h ⊢
        exact h

/-- The counter/flag component of `tolInner` is computed by its hash-free
mirror. -/
theorem tolInner_count_eq (peaks : List Peak) (anchor : Peak) (i : Nat) :
    ∀ (fuel j p : Nat),
      (tolInner peaks anchor i fuel j p).2 = tolInnerCount peaks anchor i fuel j p := by
  intro fuel
  induction fuel with
  | zero => intro j p; rfl
  | succ fuel ih =>
    intro j p
    by_cases hcond : j < i + FAN_VALUE ∧ j < peaks.length
    · have htarget : peaks.get? j = some (peaks.get ⟨j, hcond.2⟩) := List.get?_eq_get hcond.2
      by_cases hrej : (peaks.get ⟨j, hcond.2⟩).TimeMS - anchor.TimeMS ≤ MIN_HASH_TIME_DELTA ∨
          (peaks.get ⟨j, hcond.2⟩).TimeMS - anchor.TimeMS > MAX_HASH_TIME_DELTA
      · simp only [tolInner, tolInnerCount, if_pos hcond, htarget, if_pos hrej]
        exact ih (j + 1) p
      · have hL := tolLoop_count_eq anchor (peaks.get ⟨j, hcond.2⟩) tolerances p
        rcases hT : tolLoop anchor (peaks.get ⟨j, hcond.2⟩) tolerances p with ⟨fps, p', stop⟩
        rw [hT] at hL
        dsimp only at hL
        simp only [tolInner, tolInnerCount, if_pos hcond, htarget, if_neg hrej, hT, ← hL]
        cases stop with
        | true => rfl
        | false => dsimp only; exact ih (j + 1) p'
    · simp only [tolInner, tolInnerCount, if_neg hcond]

/-- The counter component of `tolOuter` is computed by its hash-free
mirror. -/
theorem tolOuter_count_eq (peaks : List Peak) :
    ∀ (fuel i p : Nat), (tolOuter peaks fuel i p).2 = tolOuterCount peaks fuel i p := by
  intro fuel
  induction fuel with
  | zero => intro i p; rfl
  | succ fuel ih =>
    intro i p
    by_cases hcond : i < peaks.length
    · have hanchor : peaks.get? i = some (peaks.get ⟨i, hcond⟩) := List.get?_eq_get hcond
      have hL := tolInner_count_eq peaks (peaks.get ⟨i, hcond⟩) i (FAN_VALUE - 1) (i + 1) p
      rcases hT : tolInner peaks (peaks.get ⟨i, hcond⟩) i (FAN_VALUE - 1) (i + 1) p
        with ⟨fps, p', stop⟩
      rw [hT] at hL
      dsimp only at hL
      simp only [tolOuter, tolOuterCount, if_pos hcond, hanchor, hT, ← hL]
      cases stop with
      | true => rfl
      | false =>
        dsimp only
        have h := ih (i + 4) p'
        rcases hR : tolOuter peaks fuel (i + 4) p' with ⟨fps2, p''⟩
        rw [hR] at h
        dsimp only at h ⊢
        exact h
    · simp only [tolOuter, tolOuterCount, if_neg hcond]

/-- The tolerance encoder's output length equals the hash-free counter. -/
theorem genMinTol_length_eq_count (peaks : List Peak) :
    (generateFingerprintsWithMinimalTolerance peaks).length =
      tolOuterCount peaks peaks.length 0 0 := by
  have hs := (tolOuter_spec peaks peaks.length 0 0 (by omega)).1
  have hc := tolOuter_count_eq peaks peaks.length 0 0
  unfold generateFingerprintsWithMinimalTolerance
  omega

/-- Every fingerprint emitted by the perturbation loop is the perturbed
fingerprint of one of the listed tolerances, with both bins in
`[0, 2048]`. -/
theorem tolLoop_sound (anchor target : Peak) :
    ∀ (tols : List (Int × Int)) (p : Nat) (fp : Fingerprint),
      fp ∈ (tolLoop anchor target tols p).1 →
      ∃ tol ∈ tols,
        0 ≤ anchor.FreqBin + tol.1 ∧ anchor.FreqBin + tol.1 ≤ 2048 ∧
        0 ≤ target.FreqBin + tol.2 ∧ target.FreqBin + tol.2 ≤ 2048 ∧
        fp = tolFingerprint anchor (anchor.FreqBin + tol.1) (target.FreqBin + tol.2)
          (target.TimeMS - anchor.TimeMS) := by
  intro tols
  induction tols with
  | nil => intro p fp hfp; simp [tolLoop] at hfp
  | cons tol rest ih =>
    intro p fp hfp
    by_cases hskip : anchor.FreqBin + tol.1 < 0 ∨ target.FreqBin + tol.2 < 0 ∨
        anchor.FreqBin + tol.1 > 2048 ∨ target.FreqBin + tol.2 > 2048
    · rw [show tolLoop anchor target (tol :: rest) p = tolLoop anchor target rest p by
        simp only [tolLoop, if_pos hskip]] at hfp
      obtain ⟨t, ht, h⟩ := ih p fp hfp
      exact ⟨t, List.mem_cons_of_mem _ ht, h⟩
    · push_neg at hskip
      obtain ⟨hb1, hb2, hb3, hb4⟩ := hskip
      have hnot : ¬(anchor.FreqBin + tol.1 < 0 ∨ target.FreqBin + tol.2 < 0 ∨
          anchor.FreqBin + tol.1 > 2048 ∨ target.FreqBin + tol.2 > 2048) := by
        push_neg
        exact ⟨hb1, hb2, hb3, hb4⟩
      by_cases hcap : p + 1 > 10000
      · rw [show tolLoop anchor target (tol :: rest) p =
            ([tolFingerprint anchor (anchor.FreqBin + tol.1) (target.FreqBin + tol.2)
              (target.TimeMS - anchor.TimeMS)], p + 1, true) by
          simp only [tolLoop, if_neg hnot, if_pos hcap]] at hfp
        simp only [List.mem_singleton] at hfp
        exact ⟨tol, List.mem_cons_self _ _, hb1, hb3, hb2, hb4, hfp⟩
      · rcases hT : tolLoop anchor target rest (p + 1) with ⟨fps, pr⟩
        rw [show tolLoop anchor target (tol :: rest) p =
            (tolFingerprint anchor (anchor.FreqBin + tol.1) (target.FreqBin + tol.2)
              (target.TimeMS - anchor.TimeMS) :: fps, pr) by
          simp only [tolLoop, if_neg hnot, if_neg hcap, hT]] at hfp
        rcases List.mem_cons.mp hfp with rfl | hfp
        · exact ⟨tol, List.mem_cons_self _ _, hb1, hb3, hb2, hb4, rfl⟩
        · obtain ⟨t, ht, h⟩ := ih (p + 1) fp (by rw [hT]; exact hfp)
          exact ⟨t, List.mem_cons_of_mem _ ht, h⟩

/-- Every fingerprint emitted by the tolerance target loop comes from an
in-window target with accepted time delta and an in-range perturbation. -/
theorem tolInner_sound (peaks : List Peak) (anchor : Peak) (i : Nat) :
    ∀ (fuel j p : Nat) (fp : Fingerprint),
      fp ∈ (tolInner peaks anchor i fuel j p).1 →
      ∃ jj target, j ≤ jj ∧ jj < i + FAN_VALUE ∧ jj < peaks.length ∧
        peaks.get? jj = some target ∧
        MIN_HASH_TIME_DELTA < target.TimeMS - anchor.TimeMS ∧
        target.TimeMS - anchor.TimeMS ≤ MAX_HASH_TIME_DELTA ∧
        ∃ tol ∈ tolerances,
          0 ≤ anchor.FreqBin + tol.1 ∧ anchor.FreqBin + tol.1 ≤ 2048 ∧
          0 ≤ target.FreqBin + tol.2 ∧ target.FreqBin + tol.2 ≤ 2048 ∧
          fp = tolFingerprint anchor (anchor.FreqBin + tol.1) (target.FreqBin + tol.2)
            (target.TimeMS - anchor.TimeMS) := by
  intro fuel
  induction fuel with
  | zero => intro j p fp hfp; simp [tolInner] at hfp
  | succ fuel ih =>
    intro j p fp hfp
    by_cases hcond : j < i + FAN_VALUE ∧ j < peaks.length
    · have htarget : peaks.get? j = some (peaks.get ⟨j, hcond.2⟩) := List.get?_eq_get hcond.2
      by_cases hrej : (peaks.get ⟨j, hcond.2⟩).TimeMS - anchor.TimeMS ≤ MIN_HASH_TIME_DELTA ∨
          (peaks.get ⟨j, hcond.2⟩).TimeMS - anchor.TimeMS > MAX_HASH_TIME_DELTA
      · rw [show tolInner peaks anchor i (fuel + 1) j p =
            tolInner peaks anchor i fuel (j + 1) p by
          simp only [tolInner, if_pos hcond, htarget, if_pos hrej]] at hfp
        obtain ⟨jj, target, h1, h⟩ := ih (j + 1) p fp hfp
        exact ⟨jj, target, by omega, h⟩
      · push_neg at hrej
        have hnrej : ¬((peaks.get ⟨j, hcond.2⟩).TimeMS - anchor.TimeMS ≤ MIN_HASH_TIME_DELTA ∨
            (peaks.get ⟨j, hcond.2⟩).TimeMS - anchor.TimeMS > MAX_HASH_TIME_DELTA) := by
          push_neg
          exact hrej
        rcases hT : tolLoop anchor (peaks.get ⟨j, hcond.2⟩) tolerances p with ⟨fps, p', stop⟩
        cases stop with
        | true =>
          rw [show tolInner peaks anchor i (fuel + 1) j p = (fps, p', true) by
            simp only [tolInner, if_pos hcond, htarget, if_neg hnrej, hT]] at hfp
          obtain ⟨tol, htol, h⟩ :=
            tolLoop_sound anchor (peaks.get ⟨j, hcond.2⟩) tolerances p fp (by rw [hT]; exact hfp)
          exact ⟨j, peaks.get ⟨j, hcond.2⟩, le_refl j, hcond.1, hcond.2, htarget,
            hrej.1, hrej.2, tol, htol, h⟩
        | false =>
          rcases hR : tolInner peaks anchor i fuel (j + 1) p' with ⟨fps2, p'', stop2⟩
          rw [show tolInner peaks anchor i (fuel + 1) j p = (fps ++ fps2, p'', stop2) by
            simp only [tolInner, if_pos hcond, htarget, if_neg hnrej, hT, hR]] at hfp
          rcases List.mem_append.mp hfp with hfp | hfp
          · obtain ⟨tol, htol, h⟩ :=
              tolLoop_sound anchor (peaks.get ⟨j, hcond.2⟩) tolerances p fp
                (by rw [hT]; exact hfp)
            exact ⟨j, peaks.get ⟨j, hcond.2⟩, le_refl j, hcond.1, hcond.2, htarget,
              hrej.1, hrej.2, tol, htol, h⟩
          · obtain ⟨jj, target, h1, h⟩ := ih (j + 1) p' fp (by rw [hR]; exact hfp)
            exact ⟨jj, target, by omega, h⟩
    · rw [show tolInner peaks anchor i (fuel + 1) j p = ([], p, false) by
        simp only [tolInner, if_neg hcond]] at hfp
      simp at hfp

/-- Every fingerprint emitted by the anchor loop comes from an anchor at a
stride-4 index, paired as in `tolInner_sound`. -/
theorem tolOuter_sound (peaks : List Peak) :
    ∀ (fuel i p : Nat) (fp : Fingerprint),
      fp ∈ (tolOuter peaks fuel i p).1 →
      ∃ k anchor, peaks.get? (i + 4 * k) = some anchor ∧
        ∃ jj target, i + 4 * k + 1 ≤ jj ∧ jj < i + 4 * k + FAN_VALUE ∧ jj < peaks.length ∧
          peaks.get? jj = some target ∧
          MIN_HASH_TIME_DELTA < target.TimeMS - anchor.TimeMS ∧
          target.TimeMS - anchor.TimeMS ≤ MAX_HASH_TIME_DELTA ∧
          ∃ tol ∈ tolerances,
            0 ≤ anchor.FreqBin + tol.1 ∧ anchor.FreqBin + tol.1 ≤ 2048 ∧
            0 ≤ target.FreqBin + tol.2 ∧ target.FreqBin + tol.2 ≤ 2048 ∧
            fp = tolFingerprint anchor (anchor.FreqBin + tol.1) (target.FreqBin + tol.2)
              (target.TimeMS - anchor.TimeMS) := by
  intro fuel
  induction fuel with
  | zero => intro i p fp hfp; simp [tolOuter] at hfp
  | succ fuel ih =>
    intro i p fp hfp
    by_cases hcond : i < peaks.length
    · have hanchor : peaks.get? i = some (peaks.get ⟨i, hcond⟩) := List.get?_eq_get hcond
      rcases hT : tolInner peaks (peaks.get ⟨i, hcond⟩) i (FAN_VALUE - 1) (i + 1) p
        with ⟨fps, p', stop⟩
      cases stop with
      | true =>
        rw [show tolOuter peaks (fuel + 1) i p = (fps, p') by
          simp only [tolOuter, if_pos hcond, hanchor, hT]] at hfp
        obtain ⟨jj, target, h1, h2, h⟩ :=
          tolInner_sound peaks (peaks.get ⟨i, hcond⟩) i (FAN_VALUE - 1) (i + 1) p fp
            (by rw [hT]; exact hfp)
        exact ⟨0, peaks.get ⟨i, hcond⟩, by simp only [Nat.mul_zero, Nat.add_zero]; exact hanchor, jj, target,
          by omega, by omega, h⟩
      | false =>
        rcases hR : tolOuter peaks fuel (i + 4) p' with ⟨fps2, p''⟩
        rw [show tolOuter peaks (fuel + 1) i p = (fps ++ fps2, p'') by
          simp only [tolOuter, if_pos hcond, hanchor, hT, hR]] at hfp
        rcases List.mem_append.mp hfp with hfp | hfp
        · obtain ⟨jj, target, h1, h2, h⟩ :=
            tolInner_sound peaks (peaks.get ⟨i, hcond⟩) i (FAN_VALUE - 1) (i + 1) p fp
              (by rw [hT]; exact hfp)
          exact ⟨0, peaks.get ⟨i, hcond⟩, by simp only [Nat.mul_zero, Nat.add_zero]; exact hanchor, jj, target,
            by omega, by omega, h⟩
        · obtain ⟨k, anchor, hga, rest⟩ := ih (i + 4) p' fp (by rw [hR]; exact hfp)
          refine ⟨k + 1, anchor, ?_, ?_⟩
          · rw [show i + 4 * (k + 1) = i + 4 + 4 * k by ring]
            exact hga
          · obtain ⟨jj, target, h1, h2, h⟩ := rest
            exact ⟨jj, target, by omega, by omega, h⟩
    · rw [show tolOuter peaks (fuel + 1) i p = ([], p) by
        simp only [tolOuter, if_neg hcond]] at hfp
      simp at hfp

/-- Element formula for `capPeaks`. -/
theorem capPeaks_get (k : Nat) (hk : k < 800) :
    capPeaks.get? k = some ⟨(k : ℚ), 100 * (k : ℚ), 1, 100⟩ := by
  unfold capPeaks
  rw [List.get?_map, List.get?_range hk]
  rfl

/-- Length of `capPeaks`. -/
theorem capPeaks_length : capPeaks.length = 800 := by
  unfold capPeaks
  simp

/-- On a pair of bin-100 peaks all four perturbations stay in range, so the
perturbation counter advances by 4 below the cap and stops at 10001 when it
would cross it. -/
theorem capLoop (a t : Peak) (hA : a.FreqBin = 100) (hT : t.FreqBin = 100)
    (p : Nat) (hp : p ≤ 10000) :
    tolLoopCount a t tolerances p =
      if p + 4 ≤ 10000 then (p + 4, false) else (10001, true) := by
  simp only [tolerances, tolLoopCount, hA, hT]
  norm_num
  split_ifs <;>
    simp only [Prod.mk.injEq, Bool.true_eq_false, Bool.false_eq_true, and_true, and_false] <;>
    omega

/-- Inner-loop formula on `capPeaks` for a full fan-out window: each
iteration adds 4 to the counter, stopping at 10001 when the cap is
crossed. -/
theorem capInner (i : Nat) (hi : i + 15 ≤ 800) :
    ∀ (fuel j p : Nat), p ≤ 10000 → i < j → j + fuel = i + 15 →
      tolInnerCount capPeaks ⟨(i : ℚ), 100 * (i : ℚ), 1, 100⟩ i fuel j p =
        if p + 4 * fuel ≤ 10000 then (p + 4 * fuel, false) else (10001, true) := by
  intro fuel
  induction fuel with
  | zero =>
    intro j p hp hij hjf
    have hstep : tolInnerCount capPeaks ⟨(i : ℚ), 100 * (i : ℚ), 1, 100⟩ i 0 j p =
        (p, false) := rfl
    rw [hstep, if_pos (by omega)]
    norm_num
  | succ fuel ih =>
    intro j p hp hij hjf
    have hcond : j < i + FAN_VALUE ∧ j < capPeaks.length := by
      rw [capPeaks_length]
      simp only [FAN_VALUE]
      omega
    have hget : capPeaks.get? j = some ⟨(j : ℚ), 100 * (j : ℚ), 1, 100⟩ :=
      capPeaks_get j (by omega)
    have hiq : (i : ℚ) < (j : ℚ) := by exact_mod_cast hij
    have hjq : (j : ℚ) ≤ (i : ℚ) + 14 := by
      have h14 : j ≤ i + 14 := by omega
      exact_mod_cast h14
    have hnrej : ¬((100 * (j : ℚ) - 100 * (i : ℚ) ≤ MIN_HASH_TIME_DELTA) ∨
        (100 * (j : ℚ) - 100 * (i : ℚ) > MAX_HASH_TIME_DELTA)) := by
      push_neg
      unfold MIN_HASH_TIME_DELTA MAX_HASH_TIME_DELTA
      constructor <;> linarith
    have hstep : tolInnerCount capPeaks ⟨(i : ℚ), 100 * (i : ℚ), 1, 100⟩ i (fuel + 1) j p =
        match tolLoopCount ⟨(i : ℚ), 100 * (i : ℚ), 1, 100⟩
            ⟨(j : ℚ), 100 * (j : ℚ), 1, 100⟩ tolerances p with
        | (p', true) => (p', true)
        | (p', false) =>
          tolInnerCount capPeaks ⟨(i : ℚ), 100 * (i : ℚ), 1, 100⟩ i fuel (j + 1) p' := by
      simp only [tolInnerCount, if_pos hcond, hget, if_neg hnrej]
    rw [hstep, capLoop _ _ rfl rfl p hp]
    by_cases hc : p + 4 ≤ 10000
    · rw [if_pos hc]
      have hred : (match ((p + 4 : Nat), false) with
          | (p', true) => ((p' : Nat), true)
          | (p', false) =>
            tolInnerCount capPeaks ⟨(i : ℚ), 100 * (i : ℚ), 1, 100⟩ i fuel (j + 1) p') =
          tolInnerCount capPeaks ⟨(i : ℚ), 100 * (i : ℚ), 1, 100⟩ i fuel (j + 1) (p + 4) := rfl
      rw [hred, ih (j + 1) (p + 4) (by omega) (by omega) (by omega)]
      have harith : p + 4 + 4 * fuel = p + 4 * (fuel + 1) := by ring
      rw [harith]
    · rw [if_neg hc]
      have hred : (match ((10001 : Nat), true) with
          | (p', true) => ((p' : Nat), true)
          | (p', false) =>
            tolInnerCount capPeaks ⟨(i : ℚ), 100 * (i : ℚ), 1, 100⟩ i fuel (j + 1) p') =
          ((10001 : Nat), true) := rfl
      rw [hred, if_neg (by omega)]

/-- Outer-loop formula on `capPeaks`: starting at a stride-4 anchor with
counter `56 * (i / 4)`, the encoder's counter reaches exactly 10001. -/
theorem capOuter : ∀ (fuel i p : Nat), i % 4 = 0 → p = 56 * (i / 4) → p ≤ 10000 →
    10000 < p + 56 * fuel → tolOuterCount capPeaks fuel i p = 10001 := by
  intro fuel
  induction fuel with
  | zero => intro i p _ _ hp hcap; omega
  | succ fuel ih =>
    intro i p hi4 hpi hp hcap
    have hile : i ≤ 712 := by omega
    have hcond : i < capPeaks.length := by rw [capPeaks_length]; omega
    have hget : capPeaks.get? i = some ⟨(i : ℚ), 100 * (i : ℚ), 1, 100⟩ :=
      capPeaks_get i (by omega)
    have hinner := capInner i (by omega) (FAN_VALUE - 1) (i + 1) p hp (by omega)
      (by simp only [FAN_VALUE])
    have hstep : tolOuterCount capPeaks (fuel + 1) i p =
        match tolInnerCount capPeaks ⟨(i : ℚ), 100 * (i : ℚ), 1, 100⟩ i
            (FAN_VALUE - 1) (i + 1) p with
        | (p', true) => p'
        | (p', false) => tolOuterCount capPeaks fuel (i + 4) p' := by
      simp only [tolOuterCount, if_pos hcond, hget]
    rw [hstep, hinner]
    have h56 : 4 * (FAN_VALUE - 1) = 56 := by simp only [FAN_VALUE]
    rw [h56]
    by_cases hc : p + 56 ≤ 10000
    · rw [if_pos hc]
      have hred : (match ((p + 56 : Nat), false) with
          | (p', true) => (p' : Nat)
          | (p', false) => tolOuterCount capPeaks fuel (i + 4) p') =
          tolOuterCount capPeaks fuel (i + 4) (p + 56) := rfl
      rw [hred]
      exact ih (i + 4) (p + 56) (by omega) (by omega) (by omega) (by omega)
    · rw [if_neg hc]

/-- **C3 counterexample.** On 800 peaks at bin 100 spaced 100 ms apart the
tolerance encoder emits 10001 tokens: the Go code increments `processed`
and only then tests `processed > 10000`, so the 10001st token is appended
before the early return fires. This refutes the claim that the total
output never exceeds 10000 tokens. -/
theorem c3_cap_counterexample :
    10000 < (generateFingerprintsWithMinimalTolerance capPeaks).length := by
  rw [genMinTol_length_eq_count, capPeaks_length,
    capOuter 800 0 0 rfl (by norm_num) (by norm_num) (by norm_num)]
  norm_num

/-- **C3 (amended).** The microphone tolerance encoder iterates anchors
with stride 4; every emitted token comes from an accepted anchor/target
pair (`0 < Δt_ms ≤ 2000`, target within the FAN window) with
`(anchor_bin, target_bin)` perturbed by one of (−1,0), (+1,0), (0,−1),
(0,+1), any perturbed pair with a bin outside `[0, 2048]` being skipped;
and its total output never exceeds 10001 tokens — it returns immediately
once its output exceeds 10000, so the 10000-token cap can be overshot by
exactly one token. -/
theorem c3_tolerance_encoder_amended (peaks : List Peak) :
    (generateFingerprintsWithMinimalTolerance peaks).length ≤ 10001 ∧
    ∀ fp ∈ generateFingerprintsWithMinimalTolerance peaks,
      ∃ i j anchor target da dt,
        i % 4 = 0 ∧ peaks.get? i = some anchor ∧ peaks.get? j = some target ∧
        i < j ∧ j < i + 15 ∧ j < peaks.length ∧
        0 < target.TimeMS - anchor.TimeMS ∧ target.TimeMS - anchor.TimeMS ≤ 2000 ∧
        (da, dt) ∈ tolerances ∧
        0 ≤ anchor.FreqBin + da ∧ anchor.FreqBin + da ≤ 2048 ∧
        0 ≤ target.FreqBin + dt ∧ target.FreqBin + dt ≤ 2048 ∧
        fp = tolFingerprint anchor (anchor.FreqBin + da) (target.FreqBin + dt)
          (target.TimeMS - anchor.TimeMS) := by
  constructor
  · have hs := tolOuter_spec peaks peaks.length 0 0 (by omega)
    unfold generateFingerprintsWithMinimalTolerance
    omega
  · intro fp hfp
    obtain ⟨k, anchor, hga, jj, target, h1, h2, h3, h4, h5, h6, tol, htol, hb1, hb2, hb3, hb4, hfp⟩ :=
      tolOuter_sound peaks peaks.length 0 0 fp hfp
    refine ⟨0 + 4 * k, jj, anchor, target, tol.1, tol.2, by omega, hga, h4, by omega,
      ?_, h3, ?_, ?_, ?_, hb1, hb2, hb3, hb4, hfp⟩
    · simp only [FAN_VALUE] at h2
      omega
    · simpa [MIN_HASH_TIME_DELTA] using h5
    · simpa [MAX_HASH_TIME_DELTA] using h6
    · simpa using htol

set_option maxRecDepth 1000000 in
set_option maxHeartbeats 4000000 in
/-- Witness for the amended C3 on a two-peak list: the bound holds and the
first emitted token is the (−1, 0)-perturbed fingerprint of the only
accepted pair. -/
theorem c3_tolerance_encoder_amended_witness :
    (generateFingerprintsWithMinimalTolerance [⟨0, 0, 1, 100⟩, ⟨1, 500, 1, 200⟩]).length
        ≤ 10001 ∧
    ∃ i j anchor target da dt,
      i % 4 = 0 ∧
      ([⟨0, 0, 1, 100⟩, ⟨1, 500, 1, 200⟩] : List Peak).get? i = some anchor ∧
      ([⟨0, 0, 1, 100⟩, ⟨1, 500, 1, 200⟩] : List Peak).get? j = some target ∧
      i < j ∧ j < i + 15 ∧ j < ([⟨0, 0, 1, 100⟩, ⟨1, 500, 1, 200⟩] : List Peak).length ∧
      0 < target.TimeMS - anchor.TimeMS ∧ target.TimeMS - anchor.TimeMS ≤ 2000 ∧
      (da, dt) ∈ tolerances ∧
      0 ≤ anchor.FreqBin + da ∧ anchor.FreqBin + da ≤ 2048 ∧
      0 ≤ target.FreqBin + dt ∧ target.FreqBin + dt ≤ 2048 ∧
      tolFingerprint ⟨0, 0, 1, 100⟩ 99 200 500 =
        tolFingerprint anchor (anchor.FreqBin + da) (target.FreqBin + dt)
          (target.TimeMS - anchor.TimeMS) := by
  refine ⟨(c3_tolerance_encoder_amended _).1, ?_⟩
  exact (c3_tolerance_encoder_amended [⟨0, 0, 1, 100⟩, ⟨1, 500, 1, 200⟩]).2
    (tolFingerprint ⟨0, 0, 1, 100⟩ 99 200 500)
    (of_decide_eq_true (by with_unfolding_all rfl))

/-- **C10.** File-mode recognition fingerprints at most the first 30
seconds of decoded audio: the samples handed to the downstream pipeline
are truncated to `sampleRate * 30` when longer, so audio past 30 seconds
never influences the returned matches — recognition of any sample vector
equals recognition of its first `sampleRate * 30` samples. -/
theorem c10_thirty_second_truncation (spectro : List ℚ → Int → List (List ℚ))
    (query : List String → List FingerprintMatch) (getSong : Nat → Option SongInfo)
    (samples : List ℚ) (sampleRate : Int) (hsr : 0 ≤ sampleRate) :
    ((samples.length : Int) > sampleRate * 30 →
      Recognize spectro query getSong samples sampleRate =
        recognizeFrom spectro query getSong
          (samples.take (sampleRate * 30).toNat) sampleRate) ∧
    Recognize spectro query getSong samples sampleRate =
      Recognize spectro query getSong (samples.take (sampleRate * 30).toNat) sampleRate := by
  constructor
  · intro h
    unfold Recognize
    rw [if_pos h]
  · by_cases h : (samples.length : Int) > sampleRate * 30
    · unfold Recognize
      rw [if_pos h, if_neg ?_]
      · push_neg
        have := List.length_take_le (sampleRate * 30).toNat samples
        omega
    · have heq : samples.take (sampleRate * 30).toNat = samples :=
        List.take_of_length_le (by omega)
      rw [heq]

/-- Witness for C10 on a 31-sample vector at sample rate 1 (bound 30). -/
theorem c10_thirty_second_truncation_witness :
    Recognize (fun _ _ => []) (fun _ => []) (fun _ => none)
        (List.replicate 31 (0 : ℚ)) 1 =
      Recognize (fun _ _ => []) (fun _ => []) (fun _ => none)
        ((List.replicate 31 (0 : ℚ)).take ((1 : Int) * 30).toNat) 1 :=
  (c10_thirty_second_truncation (fun _ _ => []) (fun _ => []) (fun _ => none)
    (List.replicate 31 (0 : ℚ)) 1 (by norm_num)).2

/-- Unfolding of `isLocalPeak`: true exactly when the centre cell strictly
exceeds every in-range cell of the 3×3 neighbourhood. -/
theorem isLocalPeak_iff (m : List (List ℚ)) (t f : Int) :
    isLocalPeak m t f = true ↔
      ∀ dt ∈ deltaList, ∀ df ∈ deltaList, ¬(dt = 0 ∧ df = 0) →
        (0 ≤ t + dt ∧ t + dt < (m.length : Int) ∧ 0 ≤ f + df ∧
          f + df < (width0 m : Int)) →
        cellI m (t + dt) (f + df) < cellI m t f := by
  unfold isLocalPeak
  simp only [List.all_eq_true]
  constructor
  · intro h dt hdt df hdf hne hin
    have hb := h dt hdt df hdf
    rw [if_neg hne, if_pos hin] at hb
    exact of_decide_eq_true hb
  · intro h dt hdt df hdf
    by_cases hne : dt = 0 ∧ df = 0
    · rw [if_pos hne]
    · rw [if_neg hne]
      by_cases hin : 0 ≤ t + dt ∧ t + dt < (m.length : Int) ∧ 0 ≤ f + df ∧
          f + df < (width0 m : Int)
      · rw [if_pos hin]
        exact decide_eq_true (h dt hdt df hdf hne hin)
      · rw [if_neg hin]

/-- Membership in an inclusive integer range. -/
theorem mem_intRange (a b x : Int) : x ∈ intRange a b ↔ a ≤ x ∧ x ≤ b := by
  unfold intRange
  simp only [List.mem_map, List.mem_range]
  constructor
  · rintro ⟨k, hk, rfl⟩
    omega
  · rintro ⟨h1, h2⟩
    exact ⟨(x - a).toNat, by omega, by omega⟩

/-- The inclusive integer range is strictly increasing. -/
theorem intRange_pairwise (a b : Int) : List.Pairwise (· < ·) (intRange a b) := by
  unfold intRange
  rw [List.pairwise_map]
  exact (List.pairwise_lt_range _).imp (by omega)

/-- Characterisation of the band scan: either no qualifying bin beat the
accumulator (result unchanged), or the result is the first qualifying bin
of maximal magnitude — every qualifying bin is dominated, with ties only at
or after the selected bin. -/
theorem scanBand_spec (m : List (List ℚ)) (t : Int) (frame : List ℚ) :
    ∀ (fs : List Int) (best : ℚ × Int), List.Pairwise (· < ·) fs →
      (scanBand m t frame fs best = best ∧
        ∀ f ∈ fs, isLocalPeak m t f = true → frameGet frame f ≤ best.1) ∨
      ((scanBand m t frame fs best).2 ∈ fs ∧
        isLocalPeak m t (scanBand m t frame fs best).2 = true ∧
        (scanBand m t frame fs best).1 = frameGet frame (scanBand m t frame fs best).2 ∧
        best.1 < (scanBand m t frame fs best).1 ∧
        ∀ f ∈ fs, isLocalPeak m t f = true →
          frameGet frame f ≤ (scanBand m t frame fs best).1 ∧
          (frameGet frame f = (scanBand m t frame fs best).1 →
            (scanBand m t frame fs best).2 ≤ f)) := by
  intro fs
  induction fs with
  | nil => intro best _; exact Or.inl ⟨rfl, by simp⟩
  | cons f0 fs ih =>
    intro best hpw
    have hall : ∀ f ∈ fs, f0 < f := fun f hf => (List.pairwise_cons.mp hpw).1 f hf
    have hpw' : List.Pairwise (· < ·) fs := (List.pairwise_cons.mp hpw).2
    by_cases hsel : frameGet frame f0 > best.1 ∧ isLocalPeak m t f0 = true
    · rw [show scanBand m t frame (f0 :: fs) best =
          scanBand m t frame fs (frameGet frame f0, f0) by
        simp only [scanBand, if_pos hsel]]
      rcases ih (frameGet frame f0, f0) hpw' with ⟨heq, hbound⟩ | ⟨hmem, hloc, hval, hgt, hbound⟩
      · rw [heq]
        refine Or.inr ⟨List.mem_cons_self _ _, hsel.2, rfl, hsel.1, ?_⟩
        intro f hf hlocf
        rcases List.mem_cons.mp hf with rfl | hf
        · exact ⟨le_refl _, fun _ => le_refl _⟩
        · exact ⟨hbound f hf hlocf, fun _ => le_of_lt (hall f hf)⟩
      · refine Or.inr ⟨List.mem_cons_of_mem _ hmem, hloc, hval, lt_trans hsel.1 hgt, ?_⟩
        intro f hf hlocf
        rcases List.mem_cons.mp hf with rfl | hf
        · exact ⟨le_of_lt hgt, fun he => absurd he (ne_of_lt hgt)⟩
        · exact hbound f hf hlocf
    · rw [show scanBand m t frame (f0 :: fs) best = scanBand m t frame fs best by
        simp only [scanBand, if_neg hsel]]
      rcases ih best hpw' with ⟨heq, hbound⟩ | ⟨hmem, hloc, hval, hgt, hbound⟩
      · refine Or.inl ⟨heq, ?_⟩
        intro f hf hlocf
        rcases List.mem_cons.mp hf with rfl | hf
        · by_contra hc
          exact hsel ⟨lt_of_not_le hc, hlocf⟩
        · exact hbound f hf hlocf
      · refine Or.inr ⟨List.mem_cons_of_mem _ hmem, hloc, hval, hgt, ?_⟩
        intro f hf hlocf
        rcases List.mem_cons.mp hf with rfl | hf
        · have hle : frameGet frame f ≤ best.1 := by
            by_contra hc
            exact hsel ⟨lt_of_not_le hc, hlocf⟩
          exact ⟨le_of_lt (lt_of_le_of_lt hle hgt),
            fun he => absurd he (ne_of_lt (lt_of_le_of_lt hle hgt))⟩
        · exact hbound f hf hlocf

/-- Characterisation of `bandPeak`: an emitted peak records the frame
index, carries a magnitude above the threshold equal to its frame cell, is
a strict local peak, lies in the band range, and dominates every local
peak of the band, with ties broken toward the lower bin. -/
theorem bandPeak_spec (m : List (List ℚ)) (sampleRate : Int) (t : Nat)
    (frame : List ℚ) (band : FrequencyBand) (p : Peak)
    (hp : bandPeak m sampleRate t frame band = some p) :
    p.Time = (t : ℚ) ∧ p.Magnitude > PEAK_THRESHOLD ∧
    isLocalPeak m (t : Int) p.FreqBin = true ∧
    p.FreqBin ∈ intRange band.Start band.End ∧
    p.Magnitude = frameGet frame p.FreqBin ∧ 0 < p.Magnitude ∧
    ∀ f ∈ intRange band.Start band.End, isLocalPeak m (t : Int) f = true →
      frameGet frame f ≤ p.Magnitude ∧ (frameGet frame f = p.Magnitude → p.FreqBin ≤ f) := by
  unfold bandPeak at hp
  split at hp
  · exact absurd hp (by simp)
  · rcases hscan : scanBand m (t : Int) frame (intRange band.Start band.End) (0, -1)
      with ⟨maxMag, maxBin⟩
    rw [hscan] at hp
    dsimp only at hp
    split at hp
    · rename_i hcond
      rcases Option.some.inj hp with rfl
      rcases scanBand_spec m (t : Int) frame (intRange band.Start band.End) (0, -1)
          (intRange_pairwise _ _) with ⟨heq, -⟩ | ⟨hmem, hloc, hval, hgt, hbound⟩
      · rw [hscan] at heq
        exact absurd (congrArg Prod.snd heq) (by simpa using hcond.1)
      · rw [hscan] at hmem hloc hval hgt hbound
        dsimp only at hmem hloc hval hgt hbound
        exact ⟨rfl, hcond.2, hloc, hmem, hval, lt_of_le_of_lt (le_refl 0) hgt, hbound⟩
    · exact absurd hp (by simp)

/-- **C5.** Every peak emitted by the peak picker has magnitude strictly
greater than τ = 0.02 and strictly greater than every in-range cell of its
3×3 neighbourhood on the magnitude grid (out-of-range neighbours do not
disqualify it); per (frame, band) at most one peak is emitted — each
band's `Option`-valued `bandPeak`, whose value is the strict-local-maximum
bin of largest magnitude in the band, with the lower bin index preferred
on equal magnitudes. Stated for rectangular magnitude grids. -/
theorem c5_peak_picker (m : List (List ℚ)) (sampleRate : Int)
    (hrect : ∀ row ∈ m, row.length = width0 m) :
    (∀ p ∈ PickPeaks m sampleRate,
      p.Magnitude > PEAK_THRESHOLD ∧
      ∃ t fNat : Nat, p.Time = (t : ℚ) ∧ p.FreqBin = (fNat : Int) ∧
        t < m.length ∧ fNat < width0 m ∧ p.Magnitude = matGet m t fNat ∧
        (∀ dt df : Int, dt ∈ deltaList → df ∈ deltaList → ¬(dt = 0 ∧ df = 0) →
          0 ≤ (t : Int) + dt → (t : Int) + dt < (m.length : Int) →
          0 ≤ (fNat : Int) + df → (fNat : Int) + df < (width0 m : Int) →
          matGet m ((t : Int) + dt).toNat ((fNat : Int) + df).toNat < p.Magnitude)) ∧
    (∀ (t : Nat) (frame : List ℚ) (band : FrequencyBand) (p : Peak),
      bandPeak m sampleRate t frame band = some p →
      p.FreqBin ∈ intRange band.Start band.End ∧
      isLocalPeak m (t : Int) p.FreqBin = true ∧
      p.Magnitude > PEAK_THRESHOLD ∧
      ∀ f ∈ intRange band.Start band.End, isLocalPeak m (t : Int) f = true →
        frameGet frame f < p.Magnitude ∨
        (frameGet frame f = p.Magnitude ∧ p.FreqBin ≤ f)) ∧
    PickPeaks m sampleRate =
      (if m.length = 0 ∨ width0 m = 0 then []
       else concatAll (fun tf =>
          (getFrequencyBands sampleRate WINDOW_SIZE).filterMap
            (bandPeak m sampleRate tf.1 tf.2)) m.enum) := by
  refine ⟨?_, ?_, rfl⟩
  · intro p hp
    unfold PickPeaks at hp
    split at hp
    · simp at hp
    · rw [mem_concatAll] at hp
      obtain ⟨⟨t, frame⟩, henum, hp2⟩ := hp
      rw [List.mem_enum_iff_get?] at henum
      rw [List.mem_filterMap] at hp2
      obtain ⟨band, hband, hbp⟩ := hp2
      obtain ⟨hTime, hThr, hLoc, hMem, hMagEq, hPos, hBound⟩ :=
        bandPeak_spec m sampleRate t frame band p hbp
      have hfnonneg : 0 ≤ p.FreqBin := by
        by_contra hneg
        push_neg at hneg
        rw [hMagEq] at hPos
        unfold frameGet at hPos
        rw [if_neg (by omega)] at hPos
        exact absurd hPos (by norm_num)
      have hval : (frame.get? p.FreqBin.toNat).getD 0 = p.Magnitude := by
        rw [hMagEq]
        unfold frameGet
        rw [if_pos hfnonneg]
      obtain ⟨v, hv⟩ : ∃ v, frame.get? p.FreqBin.toNat = some v := by
        cases h : frame.get? p.FreqBin.toNat with
        | none =>
          rw [h] at hval
          simp only [Option.getD_none] at hval
          rw [← hval] at hPos
          exact absurd hPos (by norm_num)
        | some v => exact ⟨v, rfl⟩
      obtain ⟨hflt, -⟩ := List.get?_eq_some.mp hv
      have hwidth : frame.length = width0 m := hrect frame (List.get?_mem henum)
      obtain ⟨htlt, -⟩ := List.get?_eq_some.mp henum
      have hmatGet : matGet m t p.FreqBin.toNat = p.Magnitude := by
        unfold matGet
        rw [henum]
        exact hval
      have hfb : p.FreqBin = (p.FreqBin.toNat : Int) := (Int.toNat_of_nonneg hfnonneg).symm
      refine ⟨hThr, t, p.FreqBin.toNat, hTime, hfb, htlt, by omega, hmatGet.symm, ?_⟩
      intro dt df hdt hdf hne h1 h2 h3 h4
      have hlp := (isLocalPeak_iff m (t : Int) p.FreqBin).mp hLoc dt hdt df hdf hne
        (by rw [hfb]; exact ⟨h1, h2, h3, h4⟩)
      have hc1 : cellI m ((t : Int) + dt) (p.FreqBin + df) =
          matGet m ((t : Int) + dt).toNat (((p.FreqBin.toNat : Int)) + df).toNat := by
        unfold cellI
        rw [if_pos ⟨h1, by rw [hfb] at *; exact h3⟩, hfb]
        simp
      have hc2 : cellI m (t : Int) p.FreqBin = p.Magnitude := by
        unfold cellI
        rw [if_pos ⟨by omega, hfnonneg⟩]
        simpa using hmatGet
      rw [hc1, hc2] at hlp
      exact hlp
  · intro t frame band p hbp
    obtain ⟨hTime, hThr, hLoc, hMem, hMagEq, hPos, hBound⟩ :=
      bandPeak_spec m sampleRate t frame band p hbp
    refine ⟨hMem, hLoc, hThr, ?_⟩
    intro f hf hlocf
    obtain ⟨hle, htie⟩ := hBound f hf hlocf
    rcases lt_or_eq_of_le hle with h | h
    · exact Or.inl h
    · exact Or.inr ⟨h, htie h⟩

/-- Witness for C5: a one-frame grid of width 8 with a single bump at bin
3 yields exactly that peak, with magnitude above the threshold. -/
theorem c5_peak_picker_witness :
    (⟨0, 0, 1, 3⟩ : Peak) ∈ PickPeaks [[0, 0, 0, 1, 0, 0, 0, 0]] 44100 ∧
    (⟨0, 0, 1, 3⟩ : Peak).Magnitude > PEAK_THRESHOLD := by
  have hmem : (⟨0, 0, 1, 3⟩ : Peak) ∈ PickPeaks [[0, 0, 0, 1, 0, 0, 0, 0]] 44100 :=
    of_decide_eq_true (by with_unfolding_all rfl)
  refine ⟨hmem, ?_⟩
  exact ((c5_peak_picker [[0, 0, 0, 1, 0, 0, 0, 0]] 44100
    (by intro row hrow; simp only [List.mem_singleton] at hrow; subst hrow; rfl)).1
    _ hmem).1

end MediaLuna
